import Mathlib

/-
Verification of the engineering-standards knowledge-base core.

This file gives a shallow embedding of the index engine (services/indexer.ts)
and the storage layer (services/storage.ts) of the standards MCP server, and
proves theorems about path lookup, metadata filtering, scored full-text
search, filename derivation, the update rename/rewrite sequence, and path
normalization.

JS strings are modelled as `List Char`; the code only relies on their ASCII
behaviour (lowercasing, kebab-case sanitization, substring search), which the
model reproduces character by character.
-/

/-! ## Character and string primitives (model of the JS string operations) -/

/-- Model of JS `toLowerCase` on one character, restricted to ASCII: maps
the codepoints 65–90 to 97–122 and leaves everything else unchanged. -/
def lowC (c : Char) : Char :=
  if 65 ≤ c.toNat ∧ c.toNat ≤ 90 then Char.ofNat (c.toNat + 32) else c

/-- Model of JS `String.prototype.toLowerCase` (ASCII). -/
def lowStr (l : List Char) : List Char := l.map lowC

/-- A path separator, as in the regexes `[/\\]` used throughout the source. -/
def isSep (c : Char) : Bool := c = '/' || c = '\\'

/-- All starting positions at which `pat` occurs in `s` (ascending). -/
def specPositions (s pat : List Char) : List Nat :=
  (List.range (s.length + 1)).filter (fun i => pat.isPrefixOf (s.drop i))

/-- Model of JS `String.prototype.indexOf(pat, start)`: the least occurrence
position that is `≥ start`, or `none` (JS `-1`). -/
def jsIndexOfFrom (s pat : List Char) (start : Nat) : Option Nat :=
  ((specPositions s pat).filter (fun i => start ≤ i)).head?

/-- The `while (index !== -1) { ...; index = contentLower.indexOf(queryLower,
index + 1); }` loop of `StandardsIndex.search`, collecting every found index.
The fuel argument is an upper bound on the number of iterations; `s.length + 1`
always suffices because found positions strictly increase and stay below
`s.length + 1`. -/
def collectGo (s pat : List Char) : Nat → Nat → List Nat
  | 0, _ => []
  | Nat.succ fuel, start =>
    match jsIndexOfFrom s pat start with
    | none => []
    | some i => i :: collectGo s pat fuel (i + 1)

/-- All positions recorded by the search loop of `StandardsIndex.search`,
starting from `indexOf(pat)` and advancing by one character after each hit. -/
def collectPositions (s pat : List Char) : List Nat :=
  collectGo s pat (s.length + 1) 0

/-- Model of JS `String.prototype.includes`. -/
def containsSub (big small : List Char) : Bool :=
  (List.range (big.length + 1)).any (fun i => small.isPrefixOf (big.drop i))

/-- Everything after the last path separator: model of
`replace(/^.*[/\\]/, '')`. -/
def afterLastSep (l : List Char) : List Char :=
  (l.reverse.takeWhile (fun c => !isSep c)).reverse

/-- Model of Node `path.basename`: drop trailing separators, then keep what
follows the last remaining separator. -/
def pathBasename (l : List Char) : List Char :=
  afterLastSep ((l.reverse.dropWhile isSep).reverse)

/-- The markdown extension `.md` (constant `MARKDOWN_EXTENSION`). -/
def MARKDOWN_EXT : List Char := ['.', 'm', 'd']

/-- Strip a final `.md` (case-insensitively), as in `replace(/\.md$/i, '')`
and in the `base.toLowerCase().endsWith(MARKDOWN_EXTENSION)` checks. -/
def stripDotMdCI (l : List Char) : List Char :=
  if lowStr (l.drop (l.length - 3)) = MARKDOWN_EXT ∧ 3 ≤ l.length then
    l.take (l.length - 3)
  else l

/-- Model of JS `String.prototype.split('-')`. -/
def splitHyphen : List Char → List (List Char)
  | [] => [[]]
  | c :: t =>
    match splitHyphen t with
    | [] => [[c]]
    | h :: r => if c = '-' then [] :: h :: r else (c :: h) :: r

/-- Model of JS `Array.prototype.join('-')`. -/
def joinHyphen (parts : List (List Char)) : List Char :=
  List.intercalate ['-'] parts

/-- Does `stripStdSegCore` succeed: nine characters spelling `standards`
(case-insensitively) followed by a path separator. -/
def stripStdSegCore (l : List Char) : Option (List Char) :=
  match l.drop 9 with
  | [] => none
  | c :: rest =>
    if lowStr (l.take 9) = ['s', 't', 'a', 'n', 'd', 'a', 'r', 'd', 's'] ∧ isSep c
    then some rest else none

/-- Model of `replace(/^[/\\]?standards[/\\]/i, '')`: remove one leading
(optionally separator-prefixed) `standards` directory segment. -/
def stripStoreSeg (l : List Char) : List Char :=
  match stripStdSegCore l with
  | some r => r
  | none =>
    match l with
    | [] => l
    | c :: t =>
      if isSep c then
        match stripStdSegCore t with
        | some r => r
        | none => l
      else l

/-- Whether the leading `standards`-segment pattern matches `l` at all. -/
def hasStoreSeg (l : List Char) : Bool :=
  (stripStdSegCore l).isSome ||
    (match l with
     | c :: t => isSep c && (stripStdSegCore t).isSome
     | [] => false)

/-! ## Data model (types.ts) -/

/-- The frontmatter metadata of a standard. -/
structure StandardMetadata where
  type : List Char
  tier : List Char
  process : List Char
  tags : List (List Char)
  status : List Char
  version : List Char
  author : List Char
  created : List Char
  updated : List Char
deriving DecidableEq, Repr

/-- A standard: metadata, Markdown body, and store-relative path. -/
structure Standard where
  metadata : StandardMetadata
  content : List Char
  path : List Char
deriving DecidableEq, Repr

/-- Filter criteria (`FilterOptions`). `none` models an absent field. -/
structure FilterOptions where
  type : Option (List Char) := none
  tier : Option (List Char) := none
  process : Option (List Char) := none
  status : Option (List Char) := none
  tags : Option (List (List Char)) := none
deriving DecidableEq, Repr

/-- One body match of a search result (`SearchMatch`). -/
structure SearchMatch where
  context : List Char
  startIndex : Nat
  endIndex : Nat
deriving DecidableEq, Repr

/-- A scored search result (`SearchResult`). -/
structure SearchResult where
  standard : Standard
  matches' : List SearchMatch
  score : Nat
deriving DecidableEq, Repr

/-! ## Index engine (services/indexer.ts) -/

/-- `normalizeIndexPath`: strip one leading `standards/` segment so callers
may pass `standards/spring-boot.md` or just `spring-boot.md`. -/
def normalizeIndexPath (p : List Char) : List Char := stripStoreSeg p

/-- `normalizeTypeName`: lowercase, then map the legacy plural spellings to
the canonical singular ones. -/
def normalizeTypeName (t : List Char) : List Char :=
  if t = [] then t
  else
    let lower := lowStr t
    if lower = "standards".toList then "standard".toList
    else if lower = "principles".toList then "principle".toList
    else if lower = "practices".toList then "practice".toList
    else if lower = "technical-stack".toList then "tech-stack".toList
    else lower

/-- The `type` clause of `StandardsIndex.filter`; a present empty string is
falsy in JS and imposes no constraint, like an absent one. -/
def typeOk (opts : FilterOptions) (d : Standard) : Bool :=
  match opts.type with
  | none => true
  | some t =>
    if t = [] then true
    else normalizeTypeName d.metadata.type == normalizeTypeName t

/-- The `tier` clause of `StandardsIndex.filter` (exact string equality). -/
def tierOk (opts : FilterOptions) (d : Standard) : Bool :=
  match opts.tier with
  | none => true
  | some v => if v = [] then true else d.metadata.tier == v

/-- The `process` clause of `StandardsIndex.filter` (exact string equality). -/
def processOk (opts : FilterOptions) (d : Standard) : Bool :=
  match opts.process with
  | none => true
  | some v => if v = [] then true else d.metadata.process == v

/-- The `status` clause of `StandardsIndex.filter` (exact string equality). -/
def statusOk (opts : FilterOptions) (d : Standard) : Bool :=
  match opts.status with
  | none => true
  | some v => if v = [] then true else d.metadata.status == v

/-- The `tags` clause of `StandardsIndex.filter`: every requested tag must be
present ("all of"); an absent or empty request imposes no constraint. -/
def tagsOk (opts : FilterOptions) (d : Standard) : Bool :=
  match opts.tags with
  | none => true
  | some ts =>
    if ts.length = 0 then true
    else ts.all (fun tg => d.metadata.tags.contains tg)

/-- The whole predicate of `StandardsIndex.filter`. -/
def matchesOpts (opts : FilterOptions) (d : Standard) : Bool :=
  typeOk opts d && tierOk opts d && processOk opts d && statusOk opts d &&
    tagsOk opts d

/-- `StandardsIndex.filter`: keep the matching documents in snapshot order. -/
def filterStandards (snapshot : List Standard) (opts : FilterOptions) :
    List Standard :=
  snapshot.filter (matchesOpts opts)

/-- Modelled from the spec: `extractContext` of services/parser.ts (the parser
module is not part of the provided sources) returns up to `window` characters
of body text centered on `matchIndex`, clipped to the text bounds. -/
def extractContext (text : List Char) (matchIndex window : Nat) : List Char :=
  (text.drop (matchIndex - window / 2)).take window

/-- Modelled from the spec: the constant `SEARCH_CONTEXT_LENGTH` of
constants.ts (not part of the provided sources); its exact value is
irrelevant to every property proved here. -/
def SEARCH_CONTEXT_LENGTH : Nat := 100

/-- The text searched for metadata matches: type, tier, process, tags and
author joined by spaces and lowercased (note: `status` is not included). -/
def metadataText (d : Standard) : List Char :=
  lowStr (List.intercalate [' ']
    ([d.metadata.type, d.metadata.tier, d.metadata.process] ++
      d.metadata.tags ++ [d.metadata.author]))

/-- The per-document body of `StandardsIndex.search`: collect body matches,
score body occurrences (+1 each), metadata (+2 flat) and path (+1 flat), and
keep the document only when something matched. -/
def scoreEntry (q : List Char) (std : Standard) : Option SearchResult :=
  let positions := collectPositions (lowStr std.content) (lowStr q)
  let ms := positions.map (fun i =>
    SearchMatch.mk (extractContext std.content i SEARCH_CONTEXT_LENGTH) i
      (i + q.length))
  let score := positions.length +
    (if containsSub (metadataText std) (lowStr q) then 2 else 0) +
    (if containsSub (lowStr std.path) (lowStr q) then 1 else 0)
  if ms.length ≠ 0 ∨ 0 < score then
    some (SearchResult.mk std (ms.take 3) score)
  else none

/-- The scored result list before sorting, in filter order. -/
def scoredResults (q : List Char) (docs : List Standard) : List SearchResult :=
  docs.filterMap (scoreEntry q)

/-- One step of the stable descending-by-score sort: insert `r` before the
first element whose score is `≤ r.score`. -/
def insertDesc (r : SearchResult) : List SearchResult → List SearchResult
  | [] => [r]
  | x :: t => if x.score ≤ r.score then r :: x :: t else x :: insertDesc r t

/-- Model of the stable JS `sort((a, b) => b.score - a.score)`. -/
def sortDesc : List SearchResult → List SearchResult
  | [] => []
  | r :: t => insertDesc r (sortDesc t)

/-- `StandardsIndex.search`: filter, score, stable-sort by descending score,
truncate to `limit` (default 10). -/
def searchStandards (snapshot : List Standard) (q : List Char)
    (opts : FilterOptions := {}) (limit : Nat := 10) : List SearchResult :=
  (sortDesc (scoredResults q (filterStandards snapshot opts))).take limit

/-- The lowercased, directory- and extension-stripped base of a path, as
computed inside `StandardsIndex.findByPath`. -/
def baseLower (l : List Char) : List Char :=
  lowStr (stripDotMdCI (afterLastSep l))

/-- The second/third-stage predicate of `findByPath`: the stored base name
equals the queried base name, or contains it as a substring. -/
def baseMatch (nb : List Char) (d : Standard) : Bool :=
  baseLower d.path == nb || containsSub (baseLower d.path) nb

/-- `StandardsIndex.findByPath`: normalize, try an exact stored-path match,
then a single pass testing base-name equality or containment per document. -/
def findStandardByPath (snapshot : List Standard) (p : List Char) :
    Option Standard :=
  let normalized := normalizeIndexPath p
  if normalized = [] then none
  else
    match snapshot.find? (fun d => d.path == normalized) with
    | some m => some m
    | none => snapshot.find? (baseMatch (baseLower normalized))

/-! ## Storage layer (services/storage.ts) -/

/-- Modelled from the spec: the constant `STANDARDS_DIR` of constants.ts (not
part of the provided sources), an absolute path to the flat store root. -/
def STANDARDS_DIR : List Char := "/data/standards".toList

/-- Is the path absolute (posix model of Node `path.isAbsolute`). -/
def isAbsolutePath (p : List Char) : Bool :=
  match p with
  | [] => false
  | c :: _ => c = '/'

/-- Modelled from the spec: Node `path.relative(STANDARDS_DIR, p)` for the
inputs arising here — an absolute path inside the store becomes relative to
the store root; anything else is returned unchanged. -/
def relativeToStore (p : List Char) : List Char :=
  if p = STANDARDS_DIR then []
  else if (STANDARDS_DIR ++ ['/']).isPrefixOf p then
    p.drop (STANDARDS_DIR.length + 1)
  else p

/-- `normalizeTargetPath`: empty stays empty; absolute paths are made relative
to the store; otherwise one leading `standards/` segment is removed. -/
def normalizeTargetPath (p : List Char) : List Char :=
  if p = [] then p
  else if isAbsolutePath p then relativeToStore p
  else stripStoreSeg p

/-- Is `c` a lowercase ASCII letter or digit (the class `[a-z0-9]`). -/
def isLowerAlnum (c : Char) : Bool :=
  decide ((97 ≤ c.toNat ∧ c.toNat ≤ 122) ∨ (48 ≤ c.toNat ∧ c.toNat ≤ 57))

/-- Replace every character outside `[a-z0-9]` by a hyphen. -/
def sanChar (c : Char) : Char := if isLowerAlnum c then c else '-'

/-- Collapse every run of hyphens to a single hyphen (the hyphen-run replace
of `sanitizeFilename`, jointly with the run-collapsing `+` of the previous
character-class replace). -/
def collapseHyphens : List Char → List Char
  | [] => []
  | [c] => [c]
  | a :: b :: t =>
    if a = '-' ∧ b = '-' then collapseHyphens (b :: t)
    else a :: collapseHyphens (b :: t)

/-- Remove one leading and one trailing hyphen (the edge-hyphen replace of
`sanitizeFilename`, which deletes at most one of each). -/
def stripOneEdgeHyphens (l : List Char) : List Char :=
  let l1 := if l.head? = some '-' then l.tail else l
  if l1.getLast? = some '-' then l1.dropLast else l1

/-- The kebab-case conversion inside `sanitizeFilename`: lowercase, replace
non-alphanumeric runs by single hyphens, strip edge hyphens. -/
def kebabCore (l : List Char) : List Char :=
  stripOneEdgeHyphens (collapseHyphens ((lowStr l).map sanChar))

/-- `sanitizeFilename`: strip a leading `standards/` segment, take the base
name, drop a provided `.md`, kebab-case, and append the `.md` extension. -/
def sanitizeFilename (filename : List Char) : List Char :=
  kebabCore (stripDotMdCI (pathBasename (stripStoreSeg filename))) ++
    MARKDOWN_EXT

/-- `generateDefaultFilename`: prefer the first tag, else the tier, else the
type. -/
def generateDefaultFilename (m : StandardMetadata) : List Char :=
  match m.tags with
  | t :: _ => sanitizeFilename t
  | [] => if m.tier ≠ [] then sanitizeFilename m.tier else sanitizeFilename m.type

/-- The `<type>-<tier>-<process>-` prefix computed by `generateFilePath`
(empty components are dropped by `filter(Boolean)`). -/
def prefixOfMeta (m : StandardMetadata) : List Char :=
  joinHyphen (([m.type, m.tier, m.process].filter (fun p => p ≠ [])).map
    lowStr) ++ ['-']

/-- The `-<status>` suffix computed by `generateFilePath`. -/
def suffixOfMeta (m : StandardMetadata) : List Char :=
  '-' :: lowStr m.status

/-- The sanitized file name chosen by `generateFilePath`: the sanitized
user-supplied name when one is given (an empty string is falsy in JS and
counts as absent), else the default name from the metadata. -/
def sanitizedTitle (m : StandardMetadata) (filename : Option (List Char)) :
    List Char :=
  match filename with
  | some f => if f = [] then generateDefaultFilename m else sanitizeFilename f
  | none => generateDefaultFilename m

/-- Strip a final `.md` case-sensitively (the
`titleBase.endsWith(MARKDOWN_EXTENSION)` check of `generateFilePath`). -/
def stripMdCS (l : List Char) : List Char :=
  if l.drop (l.length - 3) = MARKDOWN_EXT ∧ 3 ≤ l.length then
    l.take (l.length - 3)
  else l

/-- The `finalBase.startsWith(prefix)` strip of `generateFilePath`. -/
def stripPrefixIfPresent (p l : List Char) : List Char :=
  if p.isPrefixOf l then l.drop p.length else l

/-- The `finalBase.endsWith(suffix)` strip of `generateFilePath`. -/
def stripSuffixIfPresent (sfx l : List Char) : List Char :=
  if sfx.isSuffixOf l then l.take (l.length - sfx.length) else l

/-- The final base computed inside `generateFilePath`: the sanitized title
with extension removed, lowercased, and with an already-present prefix and/or
suffix stripped so they are not duplicated. -/
def computeFinalBase (m : StandardMetadata) (filename : Option (List Char)) :
    List Char :=
  stripSuffixIfPresent (suffixOfMeta m)
    (stripPrefixIfPresent (prefixOfMeta m)
      (lowStr (stripMdCS (sanitizedTitle m filename))))

/-- `generateFilePath`: `<type>-<tier>-<process>-<base>-<status>.md`. -/
def generateFilePath (m : StandardMetadata) (filename : Option (List Char)) :
    List Char :=
  prefixOfMeta m ++ computeFinalBase m filename ++ suffixOfMeta m ++
    MARKDOWN_EXT

/-- `extractTitleBaseFromFilename` inside `updateStandard`: recover the slug
from the current file name, probing the new (status-last) pattern, then the
old (status-fourth) pattern — both only for names of at least five segments —
then falling back to everything after the first three segments. -/
def extractTitleBaseFromFilename (basename status : List Char) : List Char :=
  let parts := splitHyphen basename
  let patternResult : Option (List Char) :=
    if 5 ≤ parts.length then
      if parts.getD (parts.length - 1) [] = status then
        some (joinHyphen ((parts.take (parts.length - 1)).drop 3))
      else if parts.getD 3 [] = status then
        some (joinHyphen (parts.drop 4))
      else none
    else none
  match patternResult with
  | some r => r
  | none =>
    if 3 < parts.length then joinHyphen (parts.drop 3) else basename

/-! ## File-system model and the update rename/rewrite phase -/

/-- Modelled from the spec: the on-disk text of one file, as far as the parser
(services/parser.ts, not part of the provided sources) is concerned — either a
well-formed metadata block plus body, or malformed text that the parser
rejects with a `MalformedDocumentError`. -/
inductive FileText where
  | doc (metadata : StandardMetadata) (body : List Char)
  | malformed (raw : List Char)
deriving DecidableEq, Repr

/-- Modelled from the spec: `parseStandard` of services/parser.ts — parsing a
well-formed file yields the document with the given relative path; parsing
malformed text fails. -/
def parseStandard (c : FileText) (relPath : List Char) :
    Except (List Char) Standard :=
  match c with
  | FileText.doc m b => Except.ok (Standard.mk m b relPath)
  | FileText.malformed _ => Except.error "MalformedDocumentError".toList

/-- Modelled from the spec: `serializeStandard` of services/parser.ts —
serialization stores the metadata block and body (the path is the file
name, not part of the stored bytes). -/
def serializeStandard (s : Standard) : FileText :=
  FileText.doc s.metadata s.content

/-- The flat store: a list of (relative path, file text) pairs. -/
abbrev FS : Type := List (List Char × FileText)

/-- Look a path up in the store. -/
def fsLookup (fs : FS) (p : List Char) : Option FileText :=
  (List.find? (fun e => e.1 == p) fs).map (fun e => e.2)

/-- Remove a path from the store. -/
def fsErase (fs : FS) (p : List Char) : FS :=
  List.filter (fun e => e.1 ≠ p) fs

/-- Model of `fs.writeFile`: create or overwrite. -/
def fsWrite (fs : FS) (p : List Char) (c : FileText) : FS :=
  (p, c) :: fsErase fs p

/-- Model of `fs.rename`. -/
def fsRename (fs : FS) (oldP newP : List Char) : FS :=
  match fsLookup fs oldP with
  | some c => fsWrite (fsErase fs oldP) newP c
  | none => fs

/-- The file-system phase of `updateStandard` (lines after the new name has
been derived): rewrite in place when the name is unchanged; otherwise check
the target for a conflict, rename, then rewrite with the merged document.
Returns the sequence of file-system states actually traversed (starting with
the initial one) together with the outcome. -/
def updateRenamePhase (fs : FS) (oldP newP : List Char) (doc : Standard) :
    List FS × Except (List Char) FS :=
  if oldP = newP then
    ([fs, fsWrite fs newP (serializeStandard doc)],
      Except.ok (fsWrite fs newP (serializeStandard doc)))
  else
    match fsLookup fs newP with
    | some _ => ([fs], Except.error "Target file already exists".toList)
    | none =>
      let s1 := fsRename fs oldP newP
      let s2 := fsWrite s1 newP (serializeStandard doc)
      ([fs, s1, s2], Except.ok s2)

/-- `listAllStandardFiles`: every markdown file of the flat store. -/
def listAllStandardFiles (fs : FS) : List (List Char) :=
  (fs.map (fun e => e.1)).filter
    (fun p => p.drop (p.length - 3) == MARKDOWN_EXT)

/-- `readStandard`: normalize the path, read the file (`NotFound` when
absent), parse it, and record the store-relative path on the document. -/
def readStandard (fs : FS) (p : List Char) : Except (List Char) Standard :=
  match fsLookup fs (normalizeTargetPath p) with
  | none => Except.error "Standard not found".toList
  | some c => parseStandard c (normalizeTargetPath p)

/-- The loop body of `readAllStandards`: read each enumerated file, keep the
successes, log and skip the failures. -/
def readAllGo (fs : FS) : List (List Char) → List Standard
  | [] => []
  | f :: rest =>
    match readStandard fs f with
    | Except.ok std => std :: readAllGo fs rest
    | Except.error _ => readAllGo fs rest

/-- `readAllStandards`: enumerate and bulk-read, skipping unreadable files. -/
def readAllStandards (fs : FS) : List Standard :=
  readAllGo fs (listAllStandardFiles fs)

/-- `StandardsIndex.refresh`: the snapshot after a refresh is exactly the
result of the bulk read. -/
def refreshedSnapshot (fs : FS) : List Standard := readAllStandards fs

/-! ## Specification-side predicates -/

/-- The number of (possibly overlapping) occurrences of the lowercased query
in the lowercased body. -/
def bodyCount (q : List Char) (d : Standard) : Nat :=
  (specPositions (lowStr d.content) (lowStr q)).length

/-- The score a document should receive according to the scoring rules:
one point per body occurrence, two flat points for a metadata hit, one flat
point for a path hit. -/
def scoreOf (q : List Char) (d : Standard) : Nat :=
  bodyCount q d +
    (if containsSub (metadataText d) (lowStr q) then 2 else 0) +
    (if containsSub (lowStr d.path) (lowStr q) then 1 else 0)

/-- Scores are descending along the list. -/
def SortedByScoreDesc (l : List SearchResult) : Prop :=
  l.Pairwise (fun a b => b.score ≤ a.score)

/-- Everything claim C5 asserts about one `search` call: results come from
the filtered snapshot and carry the specified score, zero-score documents
are excluded, at most three snippets survive per result, scores descend,
ties keep filter order (score-classes are preserved by the sort), and the
list is the sorted list truncated to `limit`. -/
def SearchSpec (snapshot : List Standard) (q : List Char)
    (opts : FilterOptions) (limit : Nat) : Prop :=
  (∀ r ∈ searchStandards snapshot q opts limit,
      r.standard ∈ filterStandards snapshot opts ∧
        r.score = scoreOf q r.standard ∧ 0 < r.score ∧
        r.matches'.length = min 3 (bodyCount q r.standard)) ∧
    SortedByScoreDesc (searchStandards snapshot q opts limit) ∧
    (searchStandards snapshot q opts limit).length =
      min limit
        ((filterStandards snapshot opts).filter
          (fun d => 0 < scoreOf q d)).length ∧
    searchStandards snapshot q opts limit =
      (sortDesc (scoredResults q (filterStandards snapshot opts))).take
        limit ∧
    (∀ k,
      (sortDesc (scoredResults q (filterStandards snapshot opts))).filter
          (fun r => r.score == k) =
        (scoredResults q (filterStandards snapshot opts)).filter
          (fun r => r.score == k)) ∧
    ∀ d ∈ filterStandards snapshot opts, scoreOf q d = 0 →
      ∀ r ∈ searchStandards snapshot q opts limit, r.standard ≠ d

/-- Everything claim C6 asserts about one `filter` call: the output is a
sublist of the snapshot (hence in snapshot order), and membership is exactly
the conjunction of the present criteria, with type compared through
normalization and tags as an all-of match. -/
def FilterCharacterization (snapshot : List Standard)
    (opts : FilterOptions) : Prop :=
  (filterStandards snapshot opts).Sublist snapshot ∧
    ∀ d, d ∈ filterStandards snapshot opts ↔
      d ∈ snapshot ∧
        (∀ t, opts.type = some t →
          normalizeTypeName d.metadata.type = normalizeTypeName t) ∧
        (∀ v, opts.tier = some v → d.metadata.tier = v) ∧
        (∀ v, opts.process = some v → d.metadata.process = v) ∧
        (∀ v, opts.status = some v → d.metadata.status = v) ∧
        ∀ ts, opts.tags = some ts → ∀ tg ∈ ts, tg ∈ d.metadata.tags

/-! ## Helper lemmas -/

theorem find?_eq_some_split {α : Type} (p : α → Bool) (l : List α) (a : α) :
    l.find? p = some a ↔
      p a = true ∧ ∃ l₁ l₂, l = l₁ ++ a :: l₂ ∧ ∀ x ∈ l₁, p x = false := by
  induction l with
  | nil => simp
  | cons b t ih =>
    cases hb : p b with
    | true =>
      rw [List.find?_cons_of_pos _ hb]
      constructor
      · intro h
        obtain rfl := Option.some.inj h
        exact ⟨hb, [], t, rfl, by simp⟩
      · rintro ⟨ha, l₁, l₂, he, hall⟩
        cases l₁ with
        | nil =>
          simp only [List.nil_append, List.cons.injEq] at he
          simp [he.1]
        | cons c t₁ =>
          simp only [List.cons_append, List.cons.injEq] at he
          have hc : p c = false := hall c (by simp)
          rw [he.1] at hb
          rw [hb] at hc
          cases hc
    | false =>
      rw [List.find?_cons_of_neg _ (by simp [hb]), ih]
      constructor
      · rintro ⟨ha, l₁, l₂, rfl, hall⟩
        refine ⟨ha, b :: l₁, l₂, rfl, ?_⟩
        intro x hx
        rcases List.mem_cons.mp hx with rfl | h
        · exact hb
        · exact hall x h
      · rintro ⟨ha, l₁, l₂, he, hall⟩
        cases l₁ with
        | nil =>
          simp only [List.nil_append, List.cons.injEq] at he
          rw [← he.1] at ha
          rw [ha] at hb
          cases hb
        | cons c t₁ =>
          simp only [List.cons_append, List.cons.injEq] at he
          obtain ⟨rfl, rfl⟩ := he
          exact ⟨ha, t₁, l₂, rfl, fun x hx => hall x (by simp [hx])⟩

theorem typeOk_iff (opts : FilterOptions) (d : Standard)
    (h : opts.type ≠ some []) :
    typeOk opts d = true ↔
      ∀ t, opts.type = some t →
        normalizeTypeName d.metadata.type = normalizeTypeName t := by
  unfold typeOk
  cases ho : opts.type with
  | none => simp
  | some t =>
    have ht : ¬(t = []) := fun he => h (by rw [ho, he])
    simp [ht, beq_iff_eq]

theorem tierOk_iff (opts : FilterOptions) (d : Standard)
    (h : opts.tier ≠ some []) :
    tierOk opts d = true ↔ ∀ v, opts.tier = some v → d.metadata.tier = v := by
  unfold tierOk
  cases ho : opts.tier with
  | none => simp
  | some v =>
    have hv : ¬(v = []) := fun he => h (by rw [ho, he])
    simp [hv, beq_iff_eq]

theorem processOk_iff (opts : FilterOptions) (d : Standard)
    (h : opts.process ≠ some []) :
    processOk opts d = true ↔
      ∀ v, opts.process = some v → d.metadata.process = v := by
  unfold processOk
  cases ho : opts.process with
  | none => simp
  | some v =>
    have hv : ¬(v = []) := fun he => h (by rw [ho, he])
    simp [hv, beq_iff_eq]

theorem statusOk_iff (opts : FilterOptions) (d : Standard)
    (h : opts.status ≠ some []) :
    statusOk opts d = true ↔
      ∀ v, opts.status = some v → d.metadata.status = v := by
  unfold statusOk
  cases ho : opts.status with
  | none => simp
  | some v =>
    have hv : ¬(v = []) := fun he => h (by rw [ho, he])
    simp [hv, beq_iff_eq]

theorem tagsOk_iff (opts : FilterOptions) (d : Standard) :
    tagsOk opts d = true ↔
      ∀ ts, opts.tags = some ts → ∀ tg ∈ ts, tg ∈ d.metadata.tags := by
  unfold tagsOk
  cases ho : opts.tags with
  | none => simp
  | some ts =>
    by_cases hlen : ts.length = 0
    · obtain rfl := List.length_eq_zero.mp hlen
      simp
    · simp only [hlen, if_false, List.all_eq_true, Option.some.injEq]
      constructor
      · intro hall ts' he tg htg
        obtain rfl := he
        exact List.elem_iff.mp (hall tg htg)
      · intro hall tg htg
        exact List.elem_iff.mpr (hall ts rfl tg htg)

/-- Claim C6: `filter` keeps exactly the documents matching every present
criterion — type through plural normalization, tags as an all-of match,
absent criteria unconstrained — and returns them in snapshot order. The
hypotheses record that present string criteria are nonempty (an empty string
is falsy in JS and never reaches the comparisons; the caller-facing schema
only produces nonempty enum values). -/
theorem filter_characterization (snapshot : List Standard)
    (opts : FilterOptions) (h1 : opts.type ≠ some [])
    (h2 : opts.tier ≠ some []) (h3 : opts.process ≠ some [])
    (h4 : opts.status ≠ some []) : FilterCharacterization snapshot opts := by
  constructor
  · exact List.filter_sublist snapshot
  · intro d
    rw [filterStandards, List.mem_filter]
    constructor
    · rintro ⟨hd, hm⟩
      simp only [matchesOpts, Bool.and_eq_true] at hm
      obtain ⟨⟨⟨⟨hty, hti⟩, hpr⟩, hst⟩, hta⟩ := hm
      exact ⟨hd, (typeOk_iff opts d h1).mp hty, (tierOk_iff opts d h2).mp hti,
        (processOk_iff opts d h3).mp hpr, (statusOk_iff opts d h4).mp hst,
        (tagsOk_iff opts d).mp hta⟩
    · rintro ⟨hd, hty, hti, hpr, hst, hta⟩
      refine ⟨hd, ?_⟩
      simp only [matchesOpts, Bool.and_eq_true]
      exact ⟨⟨⟨⟨(typeOk_iff opts d h1).mpr hty, (tierOk_iff opts d h2).mpr hti⟩,
        (processOk_iff opts d h3).mpr hpr⟩, (statusOk_iff opts d h4).mpr hst⟩,
        (tagsOk_iff opts d).mpr hta⟩

/-- A sample document for witness instantiations. -/
def sampleMeta : StandardMetadata :=
  StandardMetadata.mk "standard".toList "backend".toList "development".toList
    ["security".toList, "api".toList] "active".toList "1.0.0".toList
    "me".toList "2024-01-01".toList "2024-01-02".toList

/-- A second sample document (different tier, single tag). -/
def sampleMetaB : StandardMetadata :=
  StandardMetadata.mk "practice".toList "frontend".toList "testing".toList
    ["security".toList] "draft".toList "1.0.0".toList
    "me".toList "2024-01-01".toList "2024-01-02".toList

/-- Sample standard built on `sampleMeta`. -/
def sampleDoc : Standard :=
  Standard.mk sampleMeta "body text".toList
    "standard-backend-development-alpha-active.md".toList

/-- Sample standard built on `sampleMetaB`. -/
def sampleDocB : Standard :=
  Standard.mk sampleMetaB "other body".toList
    "practice-frontend-testing-beta-draft.md".toList

/-- Witness for claim C6 at a concrete snapshot and criteria set: the
hypotheses hold and the characterization follows by the theorem. -/
theorem filter_characterization_witness :
    (({ type := some "standards".toList,
        tags := some ["security".toList, "api".toList] } :
          FilterOptions).type ≠ some [] ∧
      FilterCharacterization [sampleDoc, sampleDocB]
        { type := some "standards".toList,
          tags := some ["security".toList, "api".toList] }) :=
  ⟨by decide,
    filter_characterization [sampleDoc, sampleDocB]
      { type := some "standards".toList,
        tags := some ["security".toList, "api".toList] }
      (by decide) (by decide) (by decide) (by decide)⟩

/-- Claim C10: the tier, process and status criteria are compared by exact,
case-sensitive equality — a criterion value differing from every stored
value (for instance only in letter case) matches no documents — whereas the
type criterion is compared through `normalizeTypeName` (lowercasing plus
plural normalization) on both sides. -/
theorem filter_case_sensitivity (snapshot : List Standard) (v : List Char)
    (hv : v ≠ [])
    (hdiff : ∀ d ∈ snapshot, d.metadata.tier ≠ v ∧ d.metadata.process ≠ v ∧
      d.metadata.status ≠ v) :
    filterStandards snapshot { tier := some v } = [] ∧
      filterStandards snapshot { process := some v } = [] ∧
      filterStandards snapshot { status := some v } = [] ∧
      ∀ d, d ∈ filterStandards snapshot { type := some v } ↔
        d ∈ snapshot ∧
          normalizeTypeName d.metadata.type = normalizeTypeName v := by
  refine ⟨?_, ?_, ?_, ?_⟩
  · rw [filterStandards, List.filter_eq_nil_iff]
    intro d hd
    simp [matchesOpts, typeOk, tierOk, processOk, statusOk, tagsOk, hv,
      beq_iff_eq, (hdiff d hd).1]
  · rw [filterStandards, List.filter_eq_nil_iff]
    intro d hd
    simp [matchesOpts, typeOk, tierOk, processOk, statusOk, tagsOk, hv,
      beq_iff_eq, (hdiff d hd).2.1]
  · rw [filterStandards, List.filter_eq_nil_iff]
    intro d hd
    simp [matchesOpts, typeOk, tierOk, processOk, statusOk, tagsOk, hv,
      beq_iff_eq, (hdiff d hd).2.2]
  · intro d
    simp [filterStandards, List.mem_filter, matchesOpts, typeOk, tierOk,
      processOk, statusOk, tagsOk, hv, beq_iff_eq]

/-- A document whose tier, process, status and type differ from the
lowercase criterion values only in letter case. -/
def sampleDocCase : Standard :=
  Standard.mk
    (StandardMetadata.mk "STANDARDS".toList "Backend".toList
      "Development".toList [] "Active".toList "1.0.0".toList "me".toList
      [] [])
    [] "x.md".toList

/-- Witness for claim C10: with the single stored document carrying tier
`Backend`, the criterion `backend` (differing only in case) matches
nothing, while the type criterion still matches through normalization. -/
theorem filter_case_sensitivity_witness :
    ("backend".toList ≠ [] ∧
      ∀ d ∈ [sampleDocCase], d.metadata.tier ≠ "backend".toList ∧
        d.metadata.process ≠ "backend".toList ∧
        d.metadata.status ≠ "backend".toList) ∧
      (filterStandards [sampleDocCase] { tier := some "backend".toList } =
          [] ∧
        filterStandards [sampleDocCase]
            { process := some "backend".toList } = [] ∧
        filterStandards [sampleDocCase] { status := some "backend".toList } =
          [] ∧
        ∀ d, d ∈ filterStandards [sampleDocCase]
            { type := some "backend".toList } ↔
          d ∈ [sampleDocCase] ∧
            normalizeTypeName d.metadata.type =
              normalizeTypeName "backend".toList) :=
  ⟨⟨by decide, by decide⟩,
    filter_case_sensitivity [sampleDocCase] "backend".toList (by decide)
      (by decide)⟩

/-- What `findByPath` actually computes: after normalization (empty results
resolve to nothing), stage one is an exact stored-path match returning the
first document whose path equals the normalized input; only when no stored
path matches exactly does a single second pass run, returning the first
document (in snapshot order) whose base name either equals the queried base
name or contains it as a substring — equality and containment are tested
together per document, not as separate ordered stages. -/
def FindByPathCharacterization (snapshot : List Standard) (p : List Char) :
    Prop :=
  ∀ d, findStandardByPath snapshot p = some d ↔
    normalizeIndexPath p ≠ [] ∧
      ((d.path = normalizeIndexPath p ∧
          ∃ pre post, snapshot = pre ++ d :: post ∧
            ∀ e ∈ pre, e.path ≠ normalizeIndexPath p) ∨
        ((∀ e ∈ snapshot, e.path ≠ normalizeIndexPath p) ∧
          baseMatch (baseLower (normalizeIndexPath p)) d = true ∧
          ∃ pre post, snapshot = pre ++ d :: post ∧
            ∀ e ∈ pre,
              baseMatch (baseLower (normalizeIndexPath p)) e = false))

/-- Claim C1 (amended): `findByPath` has two ordered stages, not three — an
exact stored-path stage, then one combined pass in snapshot order in which
base-name equality and base-name substring containment are tested together
per document. -/
theorem findByPath_characterization (snapshot : List Standard)
    (p : List Char) : FindByPathCharacterization snapshot p := by
  intro d
  unfold findStandardByPath
  by_cases hn : normalizeIndexPath p = []
  · simp [hn]
  · simp only [hn, if_false, ne_eq, not_false_eq_true, true_and]
    cases hfind : snapshot.find? (fun e => e.path == normalizeIndexPath p) with
    | some m =>
      simp only [Option.some.injEq]
      constructor
      · rintro rfl
        obtain ⟨hbeq, pre, post, heq, hpre⟩ :=
          (find?_eq_some_split _ _ _).mp hfind
        refine Or.inl ⟨by simpa [beq_iff_eq] using hbeq, pre, post, heq, ?_⟩
        intro e he
        simpa [beq_iff_eq] using hpre e he
      · rintro (⟨hdp, pre, post, heq, hpre⟩ | ⟨hnone, _, _⟩)
        · have : snapshot.find? (fun e => e.path == normalizeIndexPath p) =
              some d := by
            refine (find?_eq_some_split _ _ _).mpr
              ⟨by simp [beq_iff_eq, hdp], pre, post, heq, ?_⟩
            intro e he
            simpa [beq_iff_eq] using hpre e he
          have := hfind.symm.trans this
          exact Option.some.inj this
        · exfalso
          have hm := List.find?_some hfind
          have hmem := List.mem_of_find?_eq_some hfind
          exact hnone m hmem (by simpa [beq_iff_eq] using hm)
    | none =>
      have hnone : ∀ e ∈ snapshot, e.path ≠ normalizeIndexPath p := by
        intro e he
        have := List.find?_eq_none.mp hfind e he
        simpa [beq_iff_eq] using this
      constructor
      · intro hf
        obtain ⟨hbm, pre, post, heq, hpre⟩ := (find?_eq_some_split _ _ _).mp hf
        exact Or.inr ⟨hnone, hbm, pre, post, heq, fun e he => by
          simpa using hpre e he⟩
      · rintro (⟨hdp, pre, post, heq, _⟩ | ⟨_, hbm, pre, post, heq, hpre⟩)
        · exact absurd hdp (hnone d (by rw [heq]; simp))
        · exact (find?_eq_some_split _ _ _).mpr ⟨hbm, pre, post, heq, hpre⟩

/-- A stored document whose base name contains `bar` as a substring. -/
def docFooBar : Standard := Standard.mk sampleMeta [] "foo-bar.md".toList

/-- A stored document whose base name is exactly `bar`. -/
def docBar : Standard := Standard.mk sampleMeta [] "bar.md".toList

/-- Counterexample to claim C1 as stated: with `foo-bar.md` stored before
`bar.md`, looking up `bar` returns the earlier document whose base name
merely contains `bar`, not the later one whose base name equals `bar` —
the equality and containment checks are not strictly ordered stages. -/
theorem findByPath_counterexample :
    findStandardByPath [docFooBar, docBar] "bar".toList = some docFooBar ∧
      baseLower docBar.path = baseLower (normalizeIndexPath "bar".toList) ∧
      baseLower docFooBar.path ≠
        baseLower (normalizeIndexPath "bar".toList) ∧
      docBar ∈ [docFooBar, docBar] := by decide

/-- Witness for claim C1 (amended) at a concrete snapshot and path. -/
theorem findByPath_characterization_witness :
    FindByPathCharacterization [docFooBar, docBar] "bar".toList :=
  findByPath_characterization [docFooBar, docBar] "bar".toList

/-- What the slug recovery of `updateStandard` actually computes, by cases on
the hyphen-split segments of the existing base name: the two historical
pattern probes (status-last, then status-fourth) run only for names of at
least five segments; otherwise names of more than three segments fall back to
everything after the first three, and shorter names are returned whole. -/
def TitleBaseCases (basename status : List Char) : Prop :=
  let parts := splitHyphen basename
  (5 ≤ parts.length → parts.getD (parts.length - 1) [] = status →
      extractTitleBaseFromFilename basename status =
        joinHyphen ((parts.take (parts.length - 1)).drop 3)) ∧
    (5 ≤ parts.length → parts.getD (parts.length - 1) [] ≠ status →
      parts.getD 3 [] = status →
      extractTitleBaseFromFilename basename status =
        joinHyphen (parts.drop 4)) ∧
    ((parts.length < 5 ∨
        (parts.getD (parts.length - 1) [] ≠ status ∧
          parts.getD 3 [] ≠ status)) →
      3 < parts.length →
      extractTitleBaseFromFilename basename status =
        joinHyphen (parts.drop 3)) ∧
    (parts.length ≤ 3 →
      extractTitleBaseFromFilename basename status = basename)

/-- Claim C2 (amended): the slug recovery recognizes the two historical
layouts only when the name has at least five hyphen segments; with fewer
segments the fallback applies — more than three segments yield everything
after the first three, at most three yield the whole name. -/
theorem extractTitleBase_cases (basename status : List Char) :
    TitleBaseCases basename status := by
  unfold TitleBaseCases extractTitleBaseFromFilename
  refine ⟨?_, ?_, ?_, ?_⟩
  · intro h5 hlast
    simp only [List.getD, List.get?_eq_getElem?] at hlast
    simp [h5, hlast]
  · intro h5 hlast h3
    simp only [List.getD, List.get?_eq_getElem?] at hlast h3
    simp [h5, hlast, h3]
  · intro hcase h3
    rcases hcase with h | ⟨ha, hb⟩
    · have h5 : ¬5 ≤ (splitHyphen basename).length := by omega
      simp [h5, h3]
    · simp only [List.getD, List.get?_eq_getElem?] at ha hb
      by_cases h5 : 5 ≤ (splitHyphen basename).length
      · have h3lt : 3 < (splitHyphen basename).length := by omega
        rw [List.getElem?_eq_getElem h3lt] at hb
        simp only [Option.getD_some] at hb
        simp [h5, ha, hb, h3]
      · simp [h5, h3]
  · intro hle
    have h5 : ¬5 ≤ (splitHyphen basename).length := by omega
    have h3 : ¬3 < (splitHyphen basename).length := by omega
    simp [h5, h3]

/-- Counterexample to claim C2 as stated: for the four-segment name
`standard-backend-development-active` with current status `active`, the last
segment equals the status, yet the recovered slug is not the segments
between the third and the last (which would be empty) — the pattern probe
is skipped because the name has fewer than five segments, and the fallback
returns `active`. -/
theorem extractTitleBase_counterexample :
    (splitHyphen "standard-backend-development-active".toList).getD
        ((splitHyphen "standard-backend-development-active".toList).length -
          1) [] = "active".toList ∧
      extractTitleBaseFromFilename
          "standard-backend-development-active".toList "active".toList =
        "active".toList ∧
      extractTitleBaseFromFilename
          "standard-backend-development-active".toList "active".toList ≠
        joinHyphen
          (((splitHyphen "standard-backend-development-active".toList).take
              ((splitHyphen
                  "standard-backend-development-active".toList).length -
                1)).drop 3) := by decide

/-- Witness for claim C2 (amended) at a concrete name and status. -/
theorem extractTitleBase_cases_witness :
    TitleBaseCases "standard-backend-development-my-title-active".toList
      "active".toList :=
  extractTitleBase_cases
    "standard-backend-development-my-title-active".toList "active".toList

theorem fsLookup_fsErase_self (fs : FS) (p : List Char) :
    fsLookup (fsErase fs p) p = none := by
  unfold fsLookup fsErase
  rw [Option.map_eq_none', List.find?_eq_none]
  intro e he
  have := (List.mem_filter.mp he).2
  simp only [decide_eq_true_eq] at this
  simp [this]

theorem fsLookup_fsErase_ne (fs : FS) (p q : List Char) (h : q ≠ p) :
    fsLookup (fsErase fs p) q = fsLookup fs q := by
  induction fs with
  | nil => rfl
  | cons e t ih =>
    by_cases hp : e.1 = p
    · have hfil : fsErase (e :: t) p = fsErase t p := by
        unfold fsErase
        simp [List.filter_cons, hp]
      have hne : (e.1 == q) = false :=
        beq_eq_false_iff_ne.mpr (by rw [hp]; exact fun hh => h hh.symm)
      calc fsLookup (fsErase (e :: t) p) q
          = fsLookup (fsErase t p) q := by rw [hfil]
        _ = fsLookup t q := ih
        _ = fsLookup (e :: t) q := by
            unfold fsLookup
            rw [List.find?_cons_of_neg _ (by simp [hne])]
    · have hfil : fsErase (e :: t) p = e :: fsErase t p := by
        unfold fsErase
        simp [List.filter_cons, hp]
      rw [hfil]
      by_cases hq : e.1 = q
      · unfold fsLookup
        rw [List.find?_cons_of_pos _ (by simp [hq]),
          List.find?_cons_of_pos _ (by simp [hq])]
      · unfold fsLookup
        rw [List.find?_cons_of_neg _ (by simp [hq]),
          List.find?_cons_of_neg _ (by simp [hq])]
        exact ih

theorem fsLookup_fsWrite_self (fs : FS) (p : List Char) (c : FileText) :
    fsLookup (fsWrite fs p c) p = some c := by
  unfold fsLookup fsWrite
  rw [List.find?_cons_of_pos _ (by simp)]
  rfl

theorem fsLookup_fsWrite_ne (fs : FS) (p q : List Char) (c : FileText)
    (h : q ≠ p) : fsLookup (fsWrite fs p c) q = fsLookup fs q := by
  unfold fsWrite
  have h1 : fsLookup ((p, c) :: fsErase fs p) q = fsLookup (fsErase fs p) q := by
    unfold fsLookup
    rw [List.find?_cons_of_neg _ (by simp; exact fun hh => h hh.symm)]
  rw [h1, fsLookup_fsErase_ne fs p q h]

/-- The document exists at exactly one of the two paths. -/
def ExistsAtExactlyOne (st : FS) (p q : List Char) : Prop :=
  (fsLookup st p ≠ none ∧ fsLookup st q = none) ∨
    (fsLookup st p = none ∧ fsLookup st q ≠ none)

/-- Everything claim C3 asserts about the rename/rewrite phase of
`updateStandard`: an unchanged name rewrites in place (the document stays
present throughout); a changed name with an occupied target fails with the
conflict error having touched nothing; a changed name with a free target
renames and then rewrites, the final state holding the merged document's
serialization at the new path only, and every traversed state — before,
between and after the two steps — holds the document at exactly one of the
two paths. -/
def UpdateRenameSpec (fs : FS) (oldP newP : List Char) (doc : Standard) :
    Prop :=
  (oldP = newP →
    (updateRenamePhase fs oldP newP doc).2 =
        Except.ok (fsWrite fs newP (serializeStandard doc)) ∧
      (updateRenamePhase fs oldP newP doc).1 =
        [fs, fsWrite fs newP (serializeStandard doc)] ∧
      ∀ st ∈ (updateRenamePhase fs oldP newP doc).1,
        fsLookup st newP ≠ none) ∧
    (oldP ≠ newP → fsLookup fs newP ≠ none →
      (updateRenamePhase fs oldP newP doc).2 =
          Except.error "Target file already exists".toList ∧
        (updateRenamePhase fs oldP newP doc).1 = [fs]) ∧
    (oldP ≠ newP → fsLookup fs newP = none →
      ∃ final, (updateRenamePhase fs oldP newP doc).2 = Except.ok final ∧
        fsLookup final newP = some (serializeStandard doc) ∧
        fsLookup final oldP = none ∧
        (updateRenamePhase fs oldP newP doc).1 =
          [fs, fsRename fs oldP newP, final] ∧
        ∀ st ∈ (updateRenamePhase fs oldP newP doc).1,
          ExistsAtExactlyOne st oldP newP)

/-- Claim C3: given that the document being updated exists at its old path,
the rename/rewrite phase behaves as `UpdateRenameSpec` describes. -/
theorem updateRenamePhase_spec (fs : FS) (oldP newP : List Char)
    (doc : Standard) (hold : fsLookup fs oldP ≠ none) :
    UpdateRenameSpec fs oldP newP doc := by
  refine ⟨?_, ?_, ?_⟩
  · intro he
    subst he
    unfold updateRenamePhase
    rw [if_pos rfl]
    refine ⟨rfl, rfl, ?_⟩
    intro st hst
    rcases List.mem_cons.mp hst with rfl | hst
    · exact hold
    · rcases List.mem_cons.mp hst with rfl | hst
      · rw [fsLookup_fsWrite_self]
        simp
      · simp at hst
  · intro hne hocc
    obtain ⟨c, hc⟩ := Option.ne_none_iff_exists'.mp hocc
    unfold updateRenamePhase
    rw [if_neg hne, hc]
    exact ⟨rfl, rfl⟩
  · intro hne hfree
    obtain ⟨c0, hc0⟩ := Option.ne_none_iff_exists'.mp hold
    have hs1new :
        fsLookup (fsRename fs oldP newP) newP = some c0 := by
      unfold fsRename
      rw [hc0]
      exact fsLookup_fsWrite_self _ _ _
    have hs1old : fsLookup (fsRename fs oldP newP) oldP = none := by
      unfold fsRename
      rw [hc0, fsLookup_fsWrite_ne _ _ _ _ hne, fsLookup_fsErase_self]
    have hs2new :
        fsLookup (fsWrite (fsRename fs oldP newP) newP
            (serializeStandard doc)) newP = some (serializeStandard doc) :=
      fsLookup_fsWrite_self _ _ _
    have hs2old :
        fsLookup (fsWrite (fsRename fs oldP newP) newP
            (serializeStandard doc)) oldP = none := by
      rw [fsLookup_fsWrite_ne _ _ _ _ hne, hs1old]
    unfold updateRenamePhase
    rw [if_neg hne, hfree]
    refine ⟨fsWrite (fsRename fs oldP newP) newP (serializeStandard doc),
      rfl, hs2new, hs2old, rfl, ?_⟩
    intro st hst
    rcases List.mem_cons.mp hst with rfl | hst
    · exact Or.inl ⟨hold, hfree⟩
    · rcases List.mem_cons.mp hst with rfl | hst
      · exact Or.inr ⟨hs1old, by rw [hs1new]; simp⟩
      · rcases List.mem_cons.mp hst with rfl | hst
        · exact Or.inr ⟨hs2old, by rw [hs2new]; simp⟩
        · simp at hst

/-- A one-file store for the witness. -/
def witnessStore : FS :=
  [("old-name.md".toList, serializeStandard sampleDoc)]

/-- Witness for claim C3 at a concrete store, path pair, and document. -/
theorem updateRenamePhase_spec_witness :
    fsLookup witnessStore "old-name.md".toList ≠ none ∧
      UpdateRenameSpec witnessStore "old-name.md".toList
        "new-name.md".toList sampleDoc :=
  ⟨by decide,
    updateRenamePhase_spec witnessStore "old-name.md".toList
      "new-name.md".toList sampleDoc (by decide)⟩

theorem stripStoreSeg_id_of_no_seg (l : List Char)
    (h : hasStoreSeg l = false) : stripStoreSeg l = l := by
  unfold hasStoreSeg at h
  unfold stripStoreSeg
  cases hc : stripStdSegCore l with
  | some r => simp [hc] at h
  | none =>
    cases l with
    | nil => simp
    | cons c t =>
      by_cases hs : isSep c = true
      · cases hct : stripStdSegCore t with
        | some r => simp [hc, hct, hs] at h
        | none => simp [hct, hs]
      · simp [hs]

theorem normalizeTargetPath_fixed (q : List Char)
    (h2 : isAbsolutePath q = false) (h3 : hasStoreSeg q = false) :
    normalizeTargetPath q = q := by
  unfold normalizeTargetPath
  by_cases he : q = []
  · simp [he]
  · rw [if_neg he, if_neg (by simp [h2])]
    exact stripStoreSeg_id_of_no_seg q h3

/-- Claim C7 (amended): each normalization strips exactly one leading
`standards` directory segment, so it is idempotent on every input whose
normalized form is a relative path that does not itself begin with such a
segment; inputs carrying stacked `standards/standards/` prefixes are not
fixed points after one application. -/
theorem normalize_idempotent (p : List Char)
    (h1 : hasStoreSeg (normalizeIndexPath p) = false)
    (h2 : isAbsolutePath (normalizeTargetPath p) = false)
    (h3 : hasStoreSeg (normalizeTargetPath p) = false) :
    normalizeIndexPath (normalizeIndexPath p) = normalizeIndexPath p ∧
      normalizeTargetPath (normalizeTargetPath p) = normalizeTargetPath p :=
  ⟨stripStoreSeg_id_of_no_seg _ h1, normalizeTargetPath_fixed _ h2 h3⟩

/-- Counterexample to claim C7 as stated: on the path-shaped input
`standards/standards/x.md` both normalizations strip only the first
`standards/` segment, so a second application strips again and
`normalize(normalize(p)) ≠ normalize(p)`. -/
theorem normalize_idempotent_counterexample :
    normalizeIndexPath
        (normalizeIndexPath "standards/standards/x.md".toList) ≠
      normalizeIndexPath "standards/standards/x.md".toList ∧
      normalizeTargetPath
          (normalizeTargetPath "standards/standards/x.md".toList) ≠
        normalizeTargetPath "standards/standards/x.md".toList := by decide

/-- Witness for claim C7 (amended) at the concrete input
`standards/x.md`, whose normalized form `x.md` carries no further
`standards` segment. -/
theorem normalize_idempotent_witness :
    (hasStoreSeg (normalizeIndexPath "standards/x.md".toList) = false ∧
      isAbsolutePath (normalizeTargetPath "standards/x.md".toList) = false ∧
      hasStoreSeg (normalizeTargetPath "standards/x.md".toList) = false) ∧
      (normalizeIndexPath (normalizeIndexPath "standards/x.md".toList) =
          normalizeIndexPath "standards/x.md".toList ∧
        normalizeTargetPath (normalizeTargetPath "standards/x.md".toList) =
          normalizeTargetPath "standards/x.md".toList) :=
  ⟨⟨by decide, by decide, by decide⟩,
    normalize_idempotent "standards/x.md".toList (by decide) (by decide)
      (by decide)⟩

theorem stripStdSegCore_of_sepless (l : List Char)
    (h : ∀ c ∈ l, isSep c = false) : stripStdSegCore l = none := by
  unfold stripStdSegCore
  cases hd : l.drop 9 with
  | nil => rfl
  | cons c rest =>
    have hc : c ∈ l := List.drop_subset 9 l (by rw [hd]; exact List.mem_cons_self c rest)
    simp [h c hc]

theorem hasStoreSeg_of_sepless (l : List Char)
    (h : ∀ c ∈ l, isSep c = false) : hasStoreSeg l = false := by
  unfold hasStoreSeg
  rw [stripStdSegCore_of_sepless l h]
  cases l with
  | nil => rfl
  | cons c t => simp [h c (by simp)]

theorem normalizeTargetPath_id_of_sepless (p : List Char)
    (h : ∀ c ∈ p, isSep c = false) : normalizeTargetPath p = p := by
  by_cases he : p = []
  · rw [he]; rfl
  · have habs : isAbsolutePath p = false := by
      cases p with
      | nil => exact absurd rfl he
      | cons c t =>
        have hc := h c (by simp)
        simp only [isSep, Bool.or_eq_false_iff, decide_eq_false_iff_not] at hc
        simp [isAbsolutePath, hc.1]
    exact normalizeTargetPath_fixed p habs (hasStoreSeg_of_sepless p h)

theorem fsLookup_of_mem_nodup (fs : FS) (e : List Char × FileText)
    (he : e ∈ fs) (hnodup : (fs.map (fun x => x.1)).Nodup) :
    fsLookup fs e.1 = some e.2 := by
  induction fs with
  | nil => simp at he
  | cons f t ih =>
    rcases List.mem_cons.mp he with rfl | hm
    · unfold fsLookup
      rw [List.find?_cons_of_pos _ (by simp)]
      rfl
    · have hne : (f.1 == e.1) = false := by
        have h1 : f.1 ∉ t.map (fun x => x.1) := by
          have := hnodup
          simp only [List.map_cons, List.nodup_cons] at this
          exact this.1
        have h2 : e.1 ∈ t.map (fun x => x.1) := List.mem_map_of_mem _ hm
        exact beq_eq_false_iff_ne.mpr (fun hh => h1 (hh ▸ h2))
      unfold fsLookup
      rw [List.find?_cons_of_neg _ (by simp [hne])]
      exact ih hm (by
        have := hnodup
        simp only [List.map_cons, List.nodup_cons] at this
        exact this.2)

/-- A parsed file entry: the document when the file text parses, nothing
when it is malformed. -/
def parsedDoc (e : List Char × FileText) : Option Standard :=
  match parseStandard e.2 e.1 with
  | Except.ok d => some d
  | Except.error _ => none

theorem readAllGo_entries (fs : FS)
    (hsep : ∀ e ∈ fs, ∀ c ∈ e.1, isSep c = false)
    (hnodup : (fs.map (fun x => x.1)).Nodup) :
    ∀ es : List (List Char × FileText), (∀ e ∈ es, e ∈ fs) →
      readAllGo fs (es.map (fun e => e.1)) = es.filterMap parsedDoc := by
  intro es
  induction es with
  | nil => intro _; rfl
  | cons e t ih =>
    intro hsub
    have hefs : e ∈ fs := hsub e (by simp)
    have hread : readStandard fs e.1 = parseStandard e.2 e.1 := by
      unfold readStandard
      rw [normalizeTargetPath_id_of_sepless e.1 (hsep e hefs),
        fsLookup_of_mem_nodup fs e hefs hnodup]
    rw [List.map_cons]
    unfold readAllGo
    rw [hread, List.filterMap_cons]
    cases hp : parseStandard e.2 e.1 with
    | ok d =>
      rw [ih (fun x hx => hsub x (by simp [hx]))]
      simp [parsedDoc, hp]
    | error msg =>
      rw [ih (fun x hx => hsub x (by simp [hx]))]
      simp [parsedDoc, hp]

/-- Claim C8: the bulk read returns documents for exactly those enumerated
markdown files whose text parses — a malformed file is skipped, not fatal.
The hypotheses record that the store holds flat file names (no separator
characters) without duplicates, as the non-recursive glob guarantees. -/
theorem readAll_skips_malformed (fs : FS)
    (hsep : ∀ e ∈ fs, ∀ c ∈ e.1, isSep c = false)
    (hnodup : (fs.map (fun x => x.1)).Nodup) :
    readAllStandards fs =
      (fs.filter
        (fun e => e.1.drop (e.1.length - 3) == MARKDOWN_EXT)).filterMap
        parsedDoc := by
  unfold readAllStandards listAllStandardFiles
  rw [List.filter_map]
  exact readAllGo_entries fs hsep hnodup _
    (fun e hx => (List.mem_filter.mp hx).1)

/-- A store with one malformed file between two well-formed ones. -/
def malformedStore : FS :=
  [("a.md".toList, serializeStandard sampleDoc),
    ("bad.md".toList, FileText.malformed "not a standard".toList),
    ("b.md".toList, serializeStandard sampleDocB)]

/-- Witness for claim C8: refreshing over a store with one malformed and two
well-formed files completes and yields a snapshot of count 2. -/
theorem readAll_skips_malformed_witness :
    ((∀ e ∈ malformedStore, ∀ c ∈ e.1, isSep c = false) ∧
      (malformedStore.map (fun x => x.1)).Nodup) ∧
      readAllStandards malformedStore =
        (malformedStore.filter
          (fun e => e.1.drop (e.1.length - 3) == MARKDOWN_EXT)).filterMap
          parsedDoc ∧
      (refreshedSnapshot malformedStore).length = 2 :=
  ⟨⟨by decide, by decide⟩,
    readAll_skips_malformed malformedStore (by decide) (by decide),
    by decide⟩

theorem specPositions_pairwise (s pat : List Char) :
    List.Pairwise (· < ·) (specPositions s pat) :=
  List.Pairwise.filter _ (List.pairwise_lt_range _)

theorem specPositions_lt (s pat : List Char) (i : Nat)
    (hi : i ∈ specPositions s pat) : i < s.length + 1 :=
  List.mem_range.mp (List.mem_of_mem_filter hi)

theorem collectGo_eq (s pat : List Char) :
    ∀ fuel start, s.length + 1 ≤ fuel + start →
      collectGo s pat fuel start =
        (specPositions s pat).filter (fun i => start ≤ i) := by
  intro fuel
  induction fuel with
  | zero =>
    intro start h
    have hF : (specPositions s pat).filter (fun i => start ≤ i) = [] := by
      rw [List.filter_eq_nil_iff]
      intro i hi
      have hi2 := specPositions_lt s pat i hi
      simp only [decide_eq_true_eq]
      omega
    rw [hF]
    rfl
  | succ fuel ih =>
    intro start h
    cases hh : jsIndexOfFrom s pat start with
    | none =>
      have hF : (specPositions s pat).filter (fun i => start ≤ i) = [] := by
        have h2 := hh
        unfold jsIndexOfFrom at h2
        exact List.head?_eq_none_iff.mp h2
      simp only [collectGo, hh, hF]
    | some i =>
      have h2 := hh
      unfold jsIndexOfFrom at h2
      cases hFl : (specPositions s pat).filter (fun j => decide (start ≤ j))
        with
      | nil =>
        rw [hFl] at h2
        simp at h2
      | cons a tail =>
        rw [hFl] at h2
        have ha : a = i := by simpa using h2
        subst ha
        have hamem : a ∈ (specPositions s pat).filter
            (fun j => decide (start ≤ j)) := by
          rw [hFl]
          exact List.mem_cons_self a tail
        have hstart : start ≤ a := by
          have := (List.mem_filter.mp hamem).2
          simpa using this
        have hsorted : List.Pairwise (· < ·)
            ((specPositions s pat).filter (fun j => decide (start ≤ j))) :=
          List.Pairwise.filter _ (specPositions_pairwise s pat)
        have htail : ∀ x ∈ tail, a < x := by
          rw [hFl] at hsorted
          exact (List.pairwise_cons.mp hsorted).1
        have hft : (specPositions s pat).filter (fun j => decide (a + 1 ≤ j))
            = tail := by
          have h1 : (specPositions s pat).filter
              (fun j => decide (a + 1 ≤ j)) =
                ((specPositions s pat).filter
                  (fun j => decide (start ≤ j))).filter
                    (fun j => decide (a + 1 ≤ j)) := by
            rw [List.filter_filter]
            apply List.filter_congr
            intro x _
            by_cases hax : a + 1 ≤ x
            · have hsx : start ≤ x := by omega
              simp [hax, hsx]
            · simp [hax]
          rw [h1, hFl, List.filter_cons_of_neg (by simp)]
          apply List.filter_eq_self.mpr
          intro x hx
          have := htail x hx
          simp only [decide_eq_true_eq]
          omega
        have hfuel : s.length + 1 ≤ fuel + (a + 1) := by omega
        simp only [collectGo, hh]
        rw [ih (a + 1) hfuel]
        rw [hft]

theorem collect_eq_spec (s pat : List Char) :
    collectPositions s pat = specPositions s pat := by
  unfold collectPositions
  rw [collectGo_eq s pat (s.length + 1) 0 (by omega)]
  apply List.filter_eq_self.mpr
  intro a _
  simp

/-- Claim C9: the search loop advances by one character after each hit, so
the positions it records are exactly the starting positions at which the
lowercased query occurs in the lowercased body — overlapping occurrences
are each counted, and the body contribution to the score is the number of
such positions. -/
theorem search_counts_overlapping (d : Standard) (q : List Char)
    (hq : q ≠ []) :
    collectPositions (lowStr d.content) (lowStr q) =
        specPositions (lowStr d.content) (lowStr q) ∧
      (collectPositions (lowStr d.content) (lowStr q)).length =
        bodyCount q d :=
  ⟨collect_eq_spec _ _, by rw [collect_eq_spec]; rfl⟩

/-- A document whose body is `aaa`, for the overlapping-count witness. -/
def overlapDoc : Standard := Standard.mk sampleMeta "aaa".toList "a.md".toList

/-- Witness for claim C9: on body `aaa` the query `aa` contributes 2 — the
positions 0 and 1, which overlap — exceeding the non-overlapping count 1. -/
theorem search_counts_overlapping_witness :
    "aa".toList ≠ [] ∧
      (collectPositions (lowStr overlapDoc.content) (lowStr "aa".toList) =
          specPositions (lowStr overlapDoc.content) (lowStr "aa".toList) ∧
        (collectPositions (lowStr overlapDoc.content)
            (lowStr "aa".toList)).length = bodyCount "aa".toList overlapDoc) ∧
      bodyCount "aa".toList overlapDoc = 2 :=
  ⟨by decide, search_counts_overlapping overlapDoc "aa".toList (by decide),
    by decide⟩

theorem scoreEntry_some_props (q : List Char) (d : Standard)
    (r : SearchResult) (h : scoreEntry q d = some r) :
    r.standard = d ∧ r.score = scoreOf q d ∧ 0 < r.score ∧
      r.matches'.length = min 3 (bodyCount q d) := by
  unfold scoreEntry at h
  rw [collect_eq_spec] at h
  by_cases hc :
      ((specPositions (lowStr d.content) (lowStr q)).map (fun i =>
        SearchMatch.mk (extractContext d.content i SEARCH_CONTEXT_LENGTH) i
          (i + q.length))).length ≠ 0 ∨
        0 < (specPositions (lowStr d.content) (lowStr q)).length +
          (if containsSub (metadataText d) (lowStr q) then 2 else 0) +
          (if containsSub (lowStr d.path) (lowStr q) then 1 else 0)
  · rw [if_pos hc] at h
    obtain rfl := Option.some.inj h
    refine ⟨rfl, rfl, ?_, ?_⟩
    · rcases hc with hc | hc
      · rw [List.length_map] at hc
        show 0 < _ + _ + _
        omega
      · exact hc
    · show (List.take 3 _).length = _
      rw [List.length_take, List.length_map]
      rfl
  · rw [if_neg hc] at h
    cases h
theorem scoreEntry_none_iff (q : List Char) (d : Standard) :
    scoreEntry q d = none ↔ scoreOf q d = 0 := by
  unfold scoreEntry
  rw [collect_eq_spec]
  by_cases hc :
      ((specPositions (lowStr d.content) (lowStr q)).map (fun i =>
        SearchMatch.mk (extractContext d.content i SEARCH_CONTEXT_LENGTH) i
          (i + q.length))).length ≠ 0 ∨
        0 < (specPositions (lowStr d.content) (lowStr q)).length +
          (if containsSub (metadataText d) (lowStr q) then 2 else 0) +
          (if containsSub (lowStr d.path) (lowStr q) then 1 else 0)
  · rw [if_pos hc]
    simp only [List.length_map] at hc
    constructor
    · intro hcon
      cases hcon
    · intro h0
      exfalso
      unfold scoreOf bodyCount at h0
      rcases hc with hc | hc
      · omega
      · omega
  · rw [if_neg hc]
    simp only [List.length_map, not_or, not_not, Nat.not_lt,
      Nat.le_zero] at hc
    constructor
    · intro _
      unfold scoreOf bodyCount
      exact hc.2
    · intro _
      rfl

theorem insertDesc_perm (r : SearchResult) (l : List SearchResult) :
    (insertDesc r l).Perm (r :: l) := by
  induction l with
  | nil => exact List.Perm.refl _
  | cons x t ih =>
    by_cases hx : x.score ≤ r.score
    · rw [insertDesc, if_pos hx]
    · rw [insertDesc, if_neg hx]
      exact (ih.cons x).trans (List.Perm.swap r x t)

theorem sortDesc_perm (l : List SearchResult) : (sortDesc l).Perm l := by
  induction l with
  | nil => exact List.Perm.refl _
  | cons r t ih =>
    exact (insertDesc_perm r (sortDesc t)).trans (ih.cons r)

theorem insertDesc_sorted (r : SearchResult) (l : List SearchResult)
    (h : SortedByScoreDesc l) : SortedByScoreDesc (insertDesc r l) := by
  unfold SortedByScoreDesc at *
  induction l with
  | nil => simp [insertDesc]
  | cons x t ih =>
    obtain ⟨hx1, hx2⟩ := List.pairwise_cons.mp h
    by_cases hx : x.score ≤ r.score
    · rw [insertDesc, if_pos hx]
      refine List.pairwise_cons.mpr ⟨?_, h⟩
      intro y hy
      rcases List.mem_cons.mp hy with rfl | hy
      · exact hx
      · exact le_trans (hx1 y hy) hx
    · rw [insertDesc, if_neg hx]
      refine List.pairwise_cons.mpr ⟨?_, ih hx2⟩
      intro y hy
      have := (insertDesc_perm r t).mem_iff.mp hy
      rcases List.mem_cons.mp this with rfl | hy2
      · omega
      · exact hx1 y hy2

theorem sortDesc_sorted (l : List SearchResult) :
    SortedByScoreDesc (sortDesc l) := by
  induction l with
  | nil => exact List.Pairwise.nil
  | cons r t ih => exact insertDesc_sorted r (sortDesc t) ih

theorem insertDesc_filter_score (r : SearchResult) (l : List SearchResult)
    (k : Nat) :
    (insertDesc r l).filter (fun x => x.score == k) =
      if r.score = k then r :: l.filter (fun x => x.score == k)
      else l.filter (fun x => x.score == k) := by
  induction l with
  | nil =>
    by_cases hr : r.score = k
    · simp [insertDesc, List.filter_cons, hr]
    · simp [insertDesc, List.filter_cons, hr]
  | cons x t ih =>
    by_cases hx : x.score ≤ r.score
    · rw [insertDesc, if_pos hx]
      by_cases hr : r.score = k
      · simp [List.filter_cons, hr]
      · simp [List.filter_cons, hr]
    · have hlt : r.score < x.score := by omega
      rw [insertDesc, if_neg hx, List.filter_cons]
      by_cases hr : r.score = k
      · have hxk : ¬(x.score = k) := by omega
        simp [hxk, ih, hr]
      · by_cases hxk : x.score = k
        · simp [hxk, ih, hr, List.filter_cons]
        · simp [hxk, ih, hr, List.filter_cons]

theorem sortDesc_filter_score (l : List SearchResult) (k : Nat) :
    (sortDesc l).filter (fun x => x.score == k) =
      l.filter (fun x => x.score == k) := by
  induction l with
  | nil => rfl
  | cons r t ih =>
    show (insertDesc r (sortDesc t)).filter _ = _
    rw [insertDesc_filter_score, List.filter_cons]
    by_cases hr : r.score = k
    · simp [hr, ih]
    · simp [hr, ih]

theorem scoredResults_length (q : List Char) (docs : List Standard) :
    (scoredResults q docs).length =
      (docs.filter (fun d => 0 < scoreOf q d)).length := by
  induction docs with
  | nil => rfl
  | cons d t ih =>
    unfold scoredResults at *
    rw [List.filterMap_cons, List.filter_cons]
    cases he : scoreEntry q d with
    | none =>
      have h0 : scoreOf q d = 0 := (scoreEntry_none_iff q d).mp he
      have : ¬(0 < scoreOf q d) := by omega
      simp [this, ih]
    | some r =>
      have h0 : ¬(scoreOf q d = 0) := fun hc =>
        by rw [(scoreEntry_none_iff q d).mpr hc] at he; cases he
      have : (0 < scoreOf q d) := by omega
      simp [this, ih]

/-- Claim C5: `search` filters first, scores as specified (+1 per body
occurrence, +2 flat for metadata, +1 flat for path), excludes zero-score
documents, caps snippets at three, sorts stably by descending score, and
truncates to `limit` after sorting. -/
theorem search_spec (snapshot : List Standard) (q : List Char)
    (opts : FilterOptions) (limit : Nat) (hq : q ≠ []) :
    SearchSpec snapshot q opts limit := by
  have hdef : searchStandards snapshot q opts limit =
      (sortDesc (scoredResults q (filterStandards snapshot opts))).take
        limit := rfl
  have hmem : ∀ r ∈ searchStandards snapshot q opts limit,
      ∃ d ∈ filterStandards snapshot opts, scoreEntry q d = some r := by
    intro r hr
    rw [hdef] at hr
    have hr2 := List.take_subset _ _ hr
    have hr3 := (sortDesc_perm _).mem_iff.mp hr2
    exact List.mem_filterMap.mp hr3
  refine ⟨?_, ?_, ?_, hdef, ?_, ?_⟩
  · intro r hr
    obtain ⟨d, hd, he⟩ := hmem r hr
    obtain ⟨hstd, hsc, hpos, hmin⟩ := scoreEntry_some_props q d r he
    subst hstd
    exact ⟨hd, hsc, hpos, hmin⟩
  · rw [hdef]
    exact List.Pairwise.sublist (List.take_sublist _ _) (sortDesc_sorted _)
  · rw [hdef, List.length_take, (sortDesc_perm _).length_eq,
      scoredResults_length]
  · intro k
    exact sortDesc_filter_score _ k
  · intro d _ h0 r hr
    intro hcon
    obtain ⟨d', _, he⟩ := hmem r hr
    obtain ⟨hstd, hsc, hpos, _⟩ := scoreEntry_some_props q d' r he
    have hdd : d' = d := hstd.symm.trans hcon
    rw [hsc, hdd, h0] at hpos
    exact Nat.lt_irrefl 0 hpos

/-- Witness for claim C5 at a concrete snapshot and query. -/
theorem search_spec_witness :
    "body".toList ≠ [] ∧
      SearchSpec [sampleDoc, sampleDocB] "body".toList {} 10 :=
  ⟨by decide, search_spec [sampleDoc, sampleDocB] "body".toList {} 10
    (by decide)⟩

/-! ## Kebab-cleanliness infrastructure for filename idempotence -/

/-- A character the sanitizer leaves alone: lowercase alphanumeric or
hyphen. -/
def goodChar (c : Char) : Bool := isLowerAlnum c || decide (c = '-')

/-- Adjacent characters are not both hyphens. -/
def hyphenApart (a b : Char) : Prop := ¬(a = '-' ∧ b = '-')

/-- A nonempty kebab-clean string: hyphen-separated runs of lowercase
alphanumerics, with no leading, trailing or doubled hyphen. -/
def Clean (l : List Char) : Prop :=
  l ≠ [] ∧ l.head? ≠ some '-' ∧ l.getLast? ≠ some '-' ∧
    List.Chain' hyphenApart l ∧ ∀ c ∈ l, goodChar c = true

theorem lowC_of_good (c : Char) (h : goodChar c = true) : lowC c = c := by
  have h' : (97 ≤ c.toNat ∧ c.toNat ≤ 122) ∨ (48 ≤ c.toNat ∧ c.toNat ≤ 57) ∨
      c = '-' := by
    unfold goodChar isLowerAlnum at h
    simpa [or_assoc] using h
  unfold lowC
  rcases h' with h1 | h1 | h1
  · rw [if_neg (by omega)]
  · rw [if_neg (by omega)]
  · subst h1
    decide

theorem sanChar_of_good (c : Char) (h : goodChar c = true) : sanChar c = c := by
  have h' : isLowerAlnum c = true ∨ c = '-' := by
    unfold goodChar at h
    simpa using h
  unfold sanChar
  rcases h' with h1 | h1
  · rw [if_pos h1]
  · subst h1
    decide

theorem sanChar_good (c : Char) : goodChar (sanChar c) = true := by
  unfold sanChar
  by_cases h : isLowerAlnum c = true
  · rw [if_pos h]
    unfold goodChar
    rw [h]
    rfl
  · rw [if_neg h]
    decide

theorem good_not_sep (c : Char) (h : goodChar c = true) : isSep c = false := by
  cases hs : isSep c with
  | false => rfl
  | true =>
    have h' : c = '/' ∨ c = '\\' := by
      unfold isSep at hs
      simpa using hs
    rcases h' with rfl | rfl
    · exact absurd h (by decide)
    · exact absurd h (by decide)

theorem lowStr_id_of_good (l : List Char) (h : ∀ c ∈ l, goodChar c = true) :
    lowStr l = l := by
  unfold lowStr
  rw [List.map_congr_left (fun c hc => lowC_of_good c (h c hc))]
  exact List.map_id l

theorem sanMap_id_of_good (l : List Char)
    (h : ∀ c ∈ l, goodChar c = true) : l.map sanChar = l := by
  rw [List.map_congr_left (fun c hc => sanChar_of_good c (h c hc))]
  exact List.map_id l

theorem collapseHyphens_cons_cons (a b : Char) (t : List Char) :
    collapseHyphens (a :: b :: t) =
      if a = '-' ∧ b = '-' then collapseHyphens (b :: t)
      else a :: collapseHyphens (b :: t) := rfl

theorem collapseHyphens_id :
    ∀ l : List Char, List.Chain' hyphenApart l → collapseHyphens l = l := by
  intro l
  induction l with
  | nil => intro _; rfl
  | cons a t ih =>
    intro h
    cases t with
    | nil => rfl
    | cons b t2 =>
      obtain ⟨hr, hc⟩ := List.chain'_cons.mp h
      rw [collapseHyphens_cons_cons, if_neg hr, ih hc]

theorem collapseHyphens_head? :
    ∀ l : List Char, (collapseHyphens l).head? = l.head? := by
  intro l
  induction l with
  | nil => rfl
  | cons a t ih =>
    cases t with
    | nil => rfl
    | cons b t2 =>
      by_cases hab : a = '-' ∧ b = '-'
      · rw [collapseHyphens_cons_cons, if_pos hab, ih]
        show some b = some a
        rw [hab.1, hab.2]
      · rw [collapseHyphens_cons_cons, if_neg hab]
        rfl

theorem collapseHyphens_subset :
    ∀ l : List Char, ∀ c ∈ collapseHyphens l, c ∈ l := by
  intro l
  induction l with
  | nil => intro c hc; exact absurd hc (by simp [collapseHyphens])
  | cons a t ih =>
    cases t with
    | nil => intro c hc; exact hc
    | cons b t2 =>
      intro c hc
      by_cases hab : a = '-' ∧ b = '-'
      · rw [collapseHyphens_cons_cons, if_pos hab] at hc
        exact List.mem_cons_of_mem a (ih c hc)
      · rw [collapseHyphens_cons_cons, if_neg hab] at hc
        rcases List.mem_cons.mp hc with rfl | hc
        · exact List.mem_cons_self c (b :: t2)
        · exact List.mem_cons_of_mem a (ih c hc)

theorem collapseHyphens_chain' :
    ∀ l : List Char, List.Chain' hyphenApart (collapseHyphens l) := by
  intro l
  induction l with
  | nil => exact List.chain'_nil
  | cons a t ih =>
    cases t with
    | nil => exact List.chain'_singleton a
    | cons b t2 =>
      by_cases hab : a = '-' ∧ b = '-'
      · rw [collapseHyphens_cons_cons, if_pos hab]
        exact ih
      · rw [collapseHyphens_cons_cons, if_neg hab]
        rw [List.chain'_cons']
        refine ⟨?_, ih⟩
        intro y hy
        rw [Option.mem_def, collapseHyphens_head?] at hy
        have : y = b := by
          have : some b = some y := hy
          exact (Option.some.inj this).symm
        subst this
        exact hab

theorem stripOneEdge_id (l : List Char) (h1 : l.head? ≠ some '-')
    (h2 : l.getLast? ≠ some '-') : stripOneEdgeHyphens l = l := by
  unfold stripOneEdgeHyphens
  rw [if_neg h1, if_neg h2]

theorem kebabCore_id_of_clean (l : List Char) (h : Clean l) :
    kebabCore l = l := by
  obtain ⟨hne, hhead, hlast, hchain, hgood⟩ := h
  unfold kebabCore
  rw [lowStr_id_of_good l hgood, sanMap_id_of_good l hgood,
    collapseHyphens_id l hchain]
  exact stripOneEdge_id l hhead hlast

theorem head?_append_of_ne_nil (x y : List Char) (hx : x ≠ []) :
    (x ++ y).head? = x.head? := by
  rw [List.head?_append]
  cases hh : x.head? with
  | none => exact absurd (List.head?_eq_none_iff.mp hh) hx
  | some c => rfl

theorem getLast?_append_of_ne_nil (x y : List Char) (hy : y ≠ []) :
    (x ++ y).getLast? = y.getLast? := by
  rw [List.getLast?_append]
  cases hh : y.getLast? with
  | none => exact absurd (List.getLast?_eq_none_iff.mp hh) hy
  | some c => rfl

theorem stripOneEdge_clean_or_nil (k : List Char)
    (hkchain : List.Chain' hyphenApart k)
    (hkgood : ∀ c ∈ k, goodChar c = true) :
    stripOneEdgeHyphens k = [] ∨ Clean (stripOneEdgeHyphens k) := by
  obtain ⟨l1, hdef, hsub, hchain, hhead⟩ :
      ∃ l1, stripOneEdgeHyphens k =
          (if l1.getLast? = some '-' then l1.dropLast else l1) ∧
        l1.Sublist k ∧ List.Chain' hyphenApart l1 ∧ l1.head? ≠ some '-' := by
    by_cases hh : k.head? = some '-'
    · refine ⟨k.tail, ?_, List.tail_sublist k, hkchain.tail, ?_⟩
      · simp only [stripOneEdgeHyphens, if_pos hh]
      · cases k with
        | nil => simp at hh
        | cons c t =>
          have hc : c = '-' := by simpa using hh
          subst hc
          intro hcon
          rw [List.chain'_cons'] at hkchain
          have := hkchain.1 '-' (Option.mem_def.mpr hcon)
          exact this ⟨rfl, rfl⟩
    · refine ⟨k, ?_, List.Sublist.refl k, hkchain, hh⟩
      simp only [stripOneEdgeHyphens, if_neg hh]
  rw [hdef]
  have hgood1 : ∀ c ∈ l1, goodChar c = true := fun c hc =>
    hkgood c (hsub.subset hc)
  by_cases hl : l1.getLast? = some '-'
  · rw [if_pos hl]
    have hne : l1 ≠ [] := by
      intro hcon
      rw [hcon] at hl
      simp at hl
    have hsplit := List.dropLast_append_getLast hne
    have hlastval : l1.getLast hne = '-' := by
      have h2 := List.getLast?_eq_getLast l1 hne
      rw [hl] at h2
      exact (Option.some.inj h2).symm
    by_cases hdne : l1.dropLast = []
    · left
      exact hdne
    · right
      refine ⟨hdne, ?_, ?_, hchain.prefix ⟨[l1.getLast hne], hsplit⟩,
        fun c hc => hgood1 c ((List.dropLast_sublist l1).subset hc)⟩
      · have heq : l1.head? = l1.dropLast.head? := by
          conv_lhs => rw [← hsplit]
          rw [head?_append_of_ne_nil _ _ hdne]
        rw [← heq]
        exact hhead
      · intro hcon
        have hch : List.Chain' hyphenApart
            (l1.dropLast ++ [l1.getLast hne]) := by
          rw [hsplit]
          exact hchain
        rw [List.chain'_append] at hch
        have h3 := hch.2.2 '-' (Option.mem_def.mpr hcon) (l1.getLast hne)
          (Option.mem_def.mpr rfl)
        rw [hlastval] at h3
        exact h3 ⟨rfl, rfl⟩
  · rw [if_neg hl]
    by_cases hne : l1 = []
    · left
      exact hne
    · right
      exact ⟨hne, hhead, hl, hchain, hgood1⟩

theorem kebabCore_clean_or_nil (l : List Char) :
    kebabCore l = [] ∨ Clean (kebabCore l) := by
  have hgood : ∀ c ∈ (lowStr l).map sanChar, goodChar c = true := by
    intro c hc
    obtain ⟨x, _, rfl⟩ := List.mem_map.mp hc
    exact sanChar_good x
  exact stripOneEdge_clean_or_nil (collapseHyphens ((lowStr l).map sanChar))
    (collapseHyphens_chain' _)
    (fun c hc => hgood c (collapseHyphens_subset _ c hc))

theorem clean_append_hyphen (x y : List Char) (hx : Clean x) (hy : Clean y) :
    Clean (x ++ '-' :: y) := by
  obtain ⟨hxne, hxh, hxl, hxc, hxg⟩ := hx
  obtain ⟨hyne, hyh, hyl, hyc, hyg⟩ := hy
  refine ⟨List.append_ne_nil_of_left_ne_nil hxne _, ?_, ?_, ?_, ?_⟩
  · rw [head?_append_of_ne_nil _ _ hxne]
    exact hxh
  · have h1 : ('-' :: y : List Char) = ['-'] ++ y := rfl
    rw [h1, ← List.append_assoc,
      getLast?_append_of_ne_nil _ _ hyne]
    exact hyl
  · rw [List.chain'_append]
    refine ⟨hxc, ?_, ?_⟩
    · rw [List.chain'_cons']
      refine ⟨?_, hyc⟩
      intro z hz
      intro hcon
      apply hyh
      rw [Option.mem_def.mp hz, hcon.2]
    · intro u hu v hv
      have hv' : v = '-' := by
        have := Option.mem_def.mp hv
        simpa using this.symm
      subst hv'
      intro hcon
      apply hxl
      rw [Option.mem_def.mp hu, hcon.1]
  · intro c hc
    rcases List.mem_append.mp hc with h | h
    · exact hxg c h
    · rcases List.mem_cons.mp h with rfl | h
      · decide
      · exact hyg c h

theorem clean_of_append_right (x y : List Char)
    (h : Clean (x ++ '-' :: y)) : Clean y := by
  obtain ⟨hne, hh, hl, hc, hg⟩ := h
  have hyne : y ≠ [] := by
    intro hcon
    subst hcon
    apply hl
    have : (x ++ ['-'] : List Char).getLast? = some '-' :=
      List.getLast?_concat x
    exact this
  have hcsplit : List.Chain' hyphenApart ('-' :: y) :=
    hc.suffix ⟨x, rfl⟩
  refine ⟨hyne, ?_, ?_, (List.chain'_cons'.mp hcsplit).2, ?_⟩
  · intro hcon
    have := (List.chain'_cons'.mp hcsplit).1 '-' (Option.mem_def.mpr hcon)
    exact this ⟨rfl, rfl⟩
  · intro hcon
    apply hl
    have h1 : ('-' :: y : List Char) = ['-'] ++ y := rfl
    rw [h1, ← List.append_assoc, getLast?_append_of_ne_nil _ _ hyne]
    exact hcon
  · intro c hcm
    exact hg c (by simp [hcm])

theorem clean_of_append_left (x y : List Char)
    (h : Clean (x ++ '-' :: y)) : Clean x := by
  obtain ⟨hne, hh, hl, hc, hg⟩ := h
  have hxne : x ≠ [] := by
    intro hcon
    subst hcon
    exact hh rfl
  rw [List.chain'_append] at hc
  refine ⟨hxne, ?_, ?_, hc.1, ?_⟩
  · rw [head?_append_of_ne_nil _ _ hxne] at hh
    exact hh
  · intro hcon
    have := hc.2.2 '-' (Option.mem_def.mpr hcon) '-' (Option.mem_def.mpr rfl)
    exact this ⟨rfl, rfl⟩
  · intro c hcm
    exact hg c (by simp [hcm])

/-- The canonical singular document types (§3 of the data model, as produced
by the validator's normalization). -/
def typeEnum : List (List Char) :=
  ["principle".toList, "standard".toList, "practice".toList,
    "tech-stack".toList, "process".toList]

/-- The allowed tiers. -/
def tierEnum : List (List Char) :=
  ["frontend".toList, "backend".toList, "database".toList,
    "infrastructure".toList, "security".toList]

/-- The allowed processes. -/
def processEnum : List (List Char) :=
  ["development".toList, "testing".toList, "delivery".toList,
    "operations".toList]

/-- The allowed statuses. -/
def statusEnum : List (List Char) :=
  ["active".toList, "draft".toList, "deprecated".toList]

/-- Metadata whose enum fields hold canonical allowed values. -/
def ValidMeta (m : StandardMetadata) : Prop :=
  m.type ∈ typeEnum ∧ m.tier ∈ tierEnum ∧ m.process ∈ processEnum ∧
    m.status ∈ statusEnum

instance validMetaDec (m : StandardMetadata) : Decidable (ValidMeta m) :=
  decidable_of_iff
    (m.type ∈ typeEnum ∧ m.tier ∈ tierEnum ∧ m.process ∈ processEnum ∧
      m.status ∈ statusEnum) Iff.rfl

instance hyphenApartDec : DecidableRel hyphenApart :=
  fun a b => decidable_of_iff (¬(a = '-' ∧ b = '-')) Iff.rfl

/-- Executable check that no two adjacent characters are both hyphens. -/
def noDH : List Char → Bool
  | [] => true
  | [_] => true
  | a :: b :: t =>
    (!(decide (a = '-') && decide (b = '-'))) && noDH (b :: t)

theorem noDH_iff_chain' :
    ∀ l : List Char, noDH l = true ↔ List.Chain' hyphenApart l := by
  intro l
  induction l with
  | nil => simp [noDH, List.chain'_nil]
  | cons a t ih =>
    cases t with
    | nil => simp [noDH, List.chain'_singleton]
    | cons b t2 =>
      show ((!(decide (a = '-') && decide (b = '-'))) && noDH (b :: t2)) =
          true ↔ _
      rw [List.chain'_cons, Bool.and_eq_true, ih]
      unfold hyphenApart
      constructor
      · rintro ⟨h1, h2⟩
        refine ⟨?_, h2⟩
        intro ⟨ha, hb⟩
        subst ha
        subst hb
        simp at h1
      · rintro ⟨h1, h2⟩
        refine ⟨?_, h2⟩
        by_cases ha : a = '-'
        · by_cases hb : b = '-'
          · exact absurd ⟨ha, hb⟩ h1
          · simp [hb]
        · simp [ha]

instance cleanDec (l : List Char) : Decidable (Clean l) :=
  decidable_of_iff
    (l ≠ [] ∧ l.head? ≠ some '-' ∧ l.getLast? ≠ some '-' ∧
      noDH l = true ∧ ∀ c ∈ l, goodChar c = true)
    (by unfold Clean; rw [noDH_iff_chain' l])

theorem typeEnum_facts : ∀ x ∈ typeEnum, Clean x ∧ lowStr x = x := by decide

theorem tierEnum_facts : ∀ x ∈ tierEnum, Clean x ∧ lowStr x = x := by decide

theorem processEnum_facts : ∀ x ∈ processEnum, Clean x ∧ lowStr x = x := by
  decide

theorem statusEnum_facts : ∀ x ∈ statusEnum, Clean x ∧ lowStr x = x := by
  decide

theorem prefixOfMeta_eq (m : StandardMetadata) (hm : ValidMeta m) :
    prefixOfMeta m =
      m.type ++ '-' :: (m.tier ++ '-' :: (m.process ++ ['-'])) := by
  obtain ⟨ht, hti, hpr, _⟩ := hm
  obtain ⟨hct, hlt⟩ := typeEnum_facts m.type ht
  obtain ⟨hcti, hlti⟩ := tierEnum_facts m.tier hti
  obtain ⟨hcpr, hlpr⟩ := processEnum_facts m.process hpr
  unfold prefixOfMeta
  have hfil : [m.type, m.tier, m.process].filter (fun p => p ≠ []) =
      [m.type, m.tier, m.process] := by
    rw [List.filter_cons_of_pos (by simp [hct.1]),
      List.filter_cons_of_pos (by simp [hcti.1]),
      List.filter_cons_of_pos (by simp [hcpr.1])]
    rfl
  rw [hfil]
  simp only [List.map_cons, List.map_nil, hlt, hlti, hlpr]
  unfold joinHyphen
  simp [List.intercalate, List.intersperse, List.append_assoc]

theorem suffixOfMeta_eq (m : StandardMetadata) (hm : ValidMeta m) :
    suffixOfMeta m = '-' :: m.status := by
  obtain ⟨_, _, _, hst⟩ := hm
  obtain ⟨_, hls⟩ := statusEnum_facts m.status hst
  unfold suffixOfMeta
  rw [hls]

theorem prefixOfMeta_getLast? (m : StandardMetadata) :
    (prefixOfMeta m).getLast? = some '-' := by
  unfold prefixOfMeta
  exact List.getLast?_concat _

theorem suffixOfMeta_head? (m : StandardMetadata) :
    (suffixOfMeta m).head? = some '-' := rfl

theorem stripMdCS_append (x : List Char) :
    stripMdCS (x ++ MARKDOWN_EXT) = x := by
  unfold stripMdCS
  have h1 : (x ++ MARKDOWN_EXT).length - 3 = x.length := by
    simp [MARKDOWN_EXT]
  have hcond : (x ++ MARKDOWN_EXT).drop ((x ++ MARKDOWN_EXT).length - 3) =
      MARKDOWN_EXT ∧ 3 ≤ (x ++ MARKDOWN_EXT).length := by
    constructor
    · rw [h1]
      exact List.drop_left _ _
    · simp [MARKDOWN_EXT]
  rw [if_pos hcond, h1]
  exact List.take_left _ _

theorem stripDotMdCI_append (x : List Char) :
    stripDotMdCI (x ++ MARKDOWN_EXT) = x := by
  unfold stripDotMdCI
  have h1 : (x ++ MARKDOWN_EXT).length - 3 = x.length := by
    simp [MARKDOWN_EXT]
  have hcond : lowStr ((x ++ MARKDOWN_EXT).drop
      ((x ++ MARKDOWN_EXT).length - 3)) = MARKDOWN_EXT ∧
      3 ≤ (x ++ MARKDOWN_EXT).length := by
    constructor
    · rw [h1, List.drop_left]
      decide
    · simp [MARKDOWN_EXT]
  rw [if_pos hcond, h1]
  exact List.take_left _ _

theorem pathBasename_id_of_sepless (l : List Char)
    (h : ∀ c ∈ l, isSep c = false) : pathBasename l = l := by
  unfold pathBasename afterLastSep
  have h1 : l.reverse.dropWhile isSep = l.reverse := by
    rw [List.dropWhile_eq_self_iff]
    intro hl
    have hmem := List.get_mem l.reverse 0 hl
    have hmem2 := List.mem_reverse.mp hmem
    rw [h _ hmem2]
    simp
  rw [h1, List.reverse_reverse]
  have h2 : l.reverse.takeWhile (fun c => !isSep c) = l.reverse := by
    rw [List.takeWhile_eq_self_iff]
    intro x hx
    rw [List.mem_reverse] at hx
    simp [h x hx]
  rw [h2, List.reverse_reverse]

theorem stripPrefixIfPresent_clean (p l : List Char)
    (hp : p.getLast? = some '-') (hl : Clean l) :
    Clean (stripPrefixIfPresent p l) := by
  unfold stripPrefixIfPresent
  by_cases hpre : p.isPrefixOf l = true
  · rw [if_pos hpre]
    obtain ⟨r, rfl⟩ := List.isPrefixOf_iff_prefix.mp hpre
    rw [List.drop_left]
    have hpne : p ≠ [] := by
      intro h
      rw [h] at hp
      simp at hp
    have hplast : p.getLast hpne = '-' := by
      have h2 := List.getLast?_eq_getLast p hpne
      rw [hp] at h2
      exact (Option.some.inj h2).symm
    have hsplit : p.dropLast ++ '-' :: r = p ++ r := by
      conv_rhs => rw [← List.dropLast_append_getLast hpne]
      rw [hplast]
      simp
    apply clean_of_append_right p.dropLast r
    rw [hsplit]
    exact hl
  · rw [if_neg hpre]
    exact hl

theorem stripSuffixIfPresent_clean (sfx l : List Char)
    (hs : sfx.head? = some '-') (hl : Clean l) :
    Clean (stripSuffixIfPresent sfx l) := by
  unfold stripSuffixIfPresent
  by_cases hsuf : sfx.isSuffixOf l = true
  · rw [if_pos hsuf]
    obtain ⟨b, rfl⟩ := List.isSuffixOf_iff_suffix.mp hsuf
    have hlen : (b ++ sfx).length - sfx.length = b.length := by simp
    rw [hlen, List.take_left]
    cases sfx with
    | nil => simp at hs
    | cons c t =>
      have hc : c = '-' := by simpa using hs
      subst hc
      exact clean_of_append_left b t hl
  · rw [if_neg hsuf]
    exact hl

theorem stripPrefixIfPresent_nil (p : List Char) :
    stripPrefixIfPresent p [] = [] := by
  unfold stripPrefixIfPresent
  by_cases h : p.isPrefixOf ([] : List Char) = true
  · rw [if_pos h]
    simp
  · rw [if_neg h]

theorem stripSuffixIfPresent_nil (sfx : List Char) :
    stripSuffixIfPresent sfx [] = [] := by
  unfold stripSuffixIfPresent
  by_cases h : sfx.isSuffixOf ([] : List Char) = true
  · rw [if_pos h]
    simp
  · rw [if_neg h]

theorem sanitizedTitle_shape (m : StandardMetadata)
    (fn : Option (List Char)) :
    ∃ z, sanitizedTitle m fn = kebabCore z ++ MARKDOWN_EXT := by
  have hdefault : ∃ z,
      generateDefaultFilename m = kebabCore z ++ MARKDOWN_EXT := by
    unfold generateDefaultFilename sanitizeFilename
    cases m.tags with
    | cons t _ => exact ⟨_, rfl⟩
    | nil =>
      by_cases h : m.tier ≠ []
      · rw [if_pos h]
        exact ⟨_, rfl⟩
      · rw [if_neg h]
        exact ⟨_, rfl⟩
  cases fn with
  | none => exact hdefault
  | some f =>
    by_cases hf : f = []
    · subst hf
      exact hdefault
    · have hred : sanitizedTitle m (some f) = sanitizeFilename f := by
        simp [sanitizedTitle, hf]
      rw [hred]
      unfold sanitizeFilename
      exact ⟨_, rfl⟩

theorem computeFinalBase_clean (m : StandardMetadata)
    (fn : Option (List Char)) (hb : computeFinalBase m fn ≠ []) :
    Clean (computeFinalBase m fn) := by
  obtain ⟨z, hz⟩ := sanitizedTitle_shape m fn
  have hstrip : stripMdCS (sanitizedTitle m fn) = kebabCore z := by
    rw [hz]
    exact stripMdCS_append _
  rcases kebabCore_clean_or_nil z with hknil | hkclean
  · exfalso
    apply hb
    unfold computeFinalBase
    rw [hstrip, hknil]
    show stripSuffixIfPresent _ (stripPrefixIfPresent _ (lowStr [])) = []
    rw [show lowStr ([] : List Char) = [] from rfl,
      stripPrefixIfPresent_nil, stripSuffixIfPresent_nil]
  · unfold computeFinalBase
    rw [hstrip, lowStr_id_of_good _ hkclean.2.2.2.2]
    exact stripSuffixIfPresent_clean _ _ (suffixOfMeta_head? m)
      (stripPrefixIfPresent_clean _ _ (prefixOfMeta_getLast? m) hkclean)

/-- Claim C4 (amended): filename derivation is idempotent under
re-application for every valid metadata value and every slug whose derived
base is nonempty — the prefix and suffix are stripped before being
re-attached, so they appear exactly once. (When the sanitized slug collapses
to nothing the derived name contains a doubled hyphen, which a second
application collapses, so idempotence fails there; see the
counterexample.) -/
theorem generateFilePath_idempotent (m : StandardMetadata)
    (fn : Option (List Char)) (hm : ValidMeta m)
    (hb : computeFinalBase m fn ≠ []) :
    generateFilePath m (some (generateFilePath m fn)) =
      generateFilePath m fn := by
  have hbc : Clean (computeFinalBase m fn) := computeFinalBase_clean m fn hb
  have hstc := statusEnum_facts m.status hm.2.2.2
  have htc := (typeEnum_facts m.type hm.1).1
  have htic := (tierEnum_facts m.tier hm.2.1).1
  have hprc := (processEnum_facts m.process hm.2.2.1).1
  have hP := prefixOfMeta_eq m hm
  have hS := suffixOfMeta_eq m hm
  set b := computeFinalBase m fn with hbdef
  have hshape : prefixOfMeta m ++ b ++ suffixOfMeta m =
      m.type ++ '-' :: (m.tier ++ '-' :: (m.process ++ '-' ::
        (b ++ '-' :: m.status))) := by
    rw [hP, hS]
    simp [List.append_assoc]
  have hcleanBase : Clean (prefixOfMeta m ++ b ++ suffixOfMeta m) := by
    rw [hshape]
    exact clean_append_hyphen _ _ htc
      (clean_append_hyphen _ _ htic
        (clean_append_hyphen _ _ hprc
          (clean_append_hyphen _ _ hbc hstc.1)))
  have ho1 : generateFilePath m fn =
      (prefixOfMeta m ++ b ++ suffixOfMeta m) ++ MARKDOWN_EXT := by
    unfold generateFilePath
    simp [List.append_assoc]
  have hgoodBase : ∀ c ∈ prefixOfMeta m ++ b ++ suffixOfMeta m,
      goodChar c = true := hcleanBase.2.2.2.2
  have hsepless : ∀ c ∈ generateFilePath m fn, isSep c = false := by
    intro c hc
    rw [ho1] at hc
    rcases List.mem_append.mp hc with h | h
    · exact good_not_sep c (hgoodBase c h)
    · have h3 : c = '.' ∨ c = 'm' ∨ c = 'd' := by
        simpa [MARKDOWN_EXT] using h
      rcases h3 with rfl | rfl | rfl <;> decide
  have hgfne : generateFilePath m fn ≠ [] := by
    rw [ho1]
    exact List.append_ne_nil_of_left_ne_nil hcleanBase.1 _
  have hsan : sanitizeFilename (generateFilePath m fn) =
      (prefixOfMeta m ++ b ++ suffixOfMeta m) ++ MARKDOWN_EXT := by
    unfold sanitizeFilename
    rw [stripStoreSeg_id_of_no_seg _ (hasStoreSeg_of_sepless _ hsepless),
      pathBasename_id_of_sepless _ hsepless, ho1, stripDotMdCI_append,
      kebabCore_id_of_clean _ hcleanBase]
  have hsanT : sanitizedTitle m (some (generateFilePath m fn)) =
      (prefixOfMeta m ++ b ++ suffixOfMeta m) ++ MARKDOWN_EXT := by
    have hstep : sanitizedTitle m (some (generateFilePath m fn)) =
        sanitizeFilename (generateFilePath m fn) := by
      simp [sanitizedTitle, hgfne]
    rw [hstep, hsan]
  have hcfb2 : computeFinalBase m (some (generateFilePath m fn)) = b := by
    unfold computeFinalBase
    rw [hsanT, stripMdCS_append, lowStr_id_of_good _ hgoodBase]
    have hpre : stripPrefixIfPresent (prefixOfMeta m)
        (prefixOfMeta m ++ b ++ suffixOfMeta m) = b ++ suffixOfMeta m := by
      unfold stripPrefixIfPresent
      have hassoc : prefixOfMeta m ++ b ++ suffixOfMeta m =
          prefixOfMeta m ++ (b ++ suffixOfMeta m) := by
        simp [List.append_assoc]
      rw [hassoc,
        if_pos (List.isPrefixOf_iff_prefix.mpr ⟨b ++ suffixOfMeta m, rfl⟩)]
      exact List.drop_left _ _
    rw [hpre]
    unfold stripSuffixIfPresent
    rw [if_pos (List.isSuffixOf_iff_suffix.mpr ⟨b, rfl⟩)]
    have hlen : (b ++ suffixOfMeta m).length - (suffixOfMeta m).length =
        b.length := by simp
    rw [hlen]
    exact List.take_left _ _
  show prefixOfMeta m ++
      computeFinalBase m (some (generateFilePath m fn)) ++
      suffixOfMeta m ++ MARKDOWN_EXT = generateFilePath m fn
  rw [hcfb2]
  rfl

/-- Counterexample to claim C4 as stated: for valid metadata and the slug
`!`, which sanitizes to nothing, the derived name carries a doubled hyphen;
feeding it back in collapses the hyphens and re-attaches the status, so the
second derivation differs from the first. -/
theorem generateFilePath_counterexample :
    ValidMeta sampleMeta ∧
      generateFilePath sampleMeta
          (some (generateFilePath sampleMeta (some "!".toList))) ≠
        generateFilePath sampleMeta (some "!".toList) := by decide

/-- Witness for claim C4 (amended) at concrete metadata and slug. -/
theorem generateFilePath_idempotent_witness :
    (ValidMeta sampleMeta ∧
      computeFinalBase sampleMeta (some "My Title".toList) ≠ []) ∧
      generateFilePath sampleMeta
          (some (generateFilePath sampleMeta (some "My Title".toList))) =
        generateFilePath sampleMeta (some "My Title".toList) :=
  ⟨⟨by decide, by decide⟩,
    generateFilePath_idempotent sampleMeta (some "My Title".toList)
      (by decide) (by decide)⟩
